import Mathlib

/-!
Verification of the keep-sorted core (block discovery, line grouping,
sort/reassembly, finding/fix assembly) against its natural-language
specification.

The Go sources are shallowly embedded here:
* strings are `List Char` (Go compares strings bytewise; all inputs used
  in concrete evaluations are ASCII, where bytewise and codepoint-wise
  comparison coincide);
* Go slices of strings become `List (List Char)`;
* the shared backing array that all keep-sorted blocks of a file alias
  (`block.lines` in block.go) is modelled by threading an explicit
  buffer `List Str` through `Block.sortedB`, mirroring the in-place
  writes performed by `lineGroup.append` / `lineGroup.trimSuffix`;
* `big.Int` digit-run values become `Nat` (they are always nonnegative,
  and `big.Int` parsing drops leading zeros exactly like `Nat` parsing);
* the reflection-driven key=value option parser (options_parser.go) is
  orthogonal to every claim treated here and is abstracted as an explicit
  function parameter `parseKeys`; the post-parse steps of
  `parseBlockOptions` (comment-marker detection, ignore-prefix length
  sorting, `validate`) are embedded concretely.
-/

namespace KeepSorted

/-- Strings are modelled as lists of characters. -/
abbrev Str := List Char

/-- Go `unicode.IsSpace` on the code points that can appear in our inputs
(the ASCII whitespace characters plus NEL and NBSP). -/
def isSpaceGo (c : Char) : Bool :=
  c = ' ' ∨ c = '\t' ∨ c = '\n' ∨ c = Char.ofNat 11 ∨ c = Char.ofNat 12 ∨
    c = Char.ofNat 13 ∨ c = Char.ofNat 133 ∨ c = Char.ofNat 160

/-- Word characters, as matched by the regexes used in
`lineGroup.joinedLines` (the regexp class for word characters). -/
def isWordChar (c : Char) : Bool :=
  (('0' ≤ c ∧ c ≤ '9') ∨ ('a' ≤ c ∧ c ≤ 'z') ∨ ('A' ≤ c ∧ c ≤ 'Z') ∨ c = '_')

/-- Decimal digit, the character class used by `mixedNumberPattern`. -/
def isDigitGo (c : Char) : Bool := '0' ≤ c ∧ c ≤ '9'

/-- Go `strings.TrimLeftFunc(s, unicode.IsSpace)`. -/
def trimLeftSpace (s : Str) : Str := s.dropWhile isSpaceGo

/-- Go `strings.TrimSpace`. -/
def trimSpace (s : Str) : Str :=
  (((s.dropWhile isSpaceGo).reverse).dropWhile isSpaceGo).reverse

/-- Go `strings.Compare` (bytewise; codepoints agree on ASCII). -/
def strCmp : Str → Str → Int
  | [], [] => 0
  | [], _ :: _ => -1
  | _ :: _, [] => 1
  | a :: as, b :: bs =>
    if a.toNat < b.toNat then -1
    else if b.toNat < a.toNat then 1
    else strCmp as bs

/-- Go `strings.HasSuffix`. -/
def hasSuffixS (s suffix : Str) : Bool := suffix.isSuffixOf s

/-- Go `strings.TrimSuffix`: removes one trailing occurrence if present. -/
def trimSuffixOnce (s suffix : Str) : Str :=
  if hasSuffixS s suffix then s.take (s.length - suffix.length) else s

/-- Go `strings.Contains`. -/
def containsSub (s sub : Str) : Bool :=
  match s with
  | [] => sub.isEmpty
  | c :: rest => sub.isPrefixOf (c :: rest) || containsSub rest sub

/-- Go `strings.Cut`: splits around the first occurrence of `sep`.
Every call site in the embedded code has already checked containment,
so only the before/after pair is returned. -/
def cutAt (s sep : Str) : Str × Str :=
  match s with
  | [] => ([], [])
  | c :: rest =>
    if sep.isPrefixOf (c :: rest) then ([], (c :: rest).drop sep.length)
    else
      let (b, a) := cutAt rest sep
      (c :: b, a)

/-- Go `strings.Replace(s, old, new, 1)` with `new = ""`: removes the
first occurrence of `old` from `s` (returns `s` unchanged if absent;
an empty `old` matches at the start, inserting nothing). -/
def removeFirst (s old : Str) : Str :=
  match s with
  | [] => []
  | c :: rest =>
    if old.isPrefixOf (c :: rest) then (c :: rest).drop old.length
    else c :: removeFirst rest old

/-- Go `strings.Join(parts, sep)`. -/
def joinWith (sep : Str) : List Str → Str
  | [] => []
  | [s] => s
  | s :: rest => s ++ sep ++ joinWith sep rest

/-- Go `strings.ToLower` restricted to ASCII (all concrete inputs are
ASCII; `CaseSensitive` is on by default in every pipeline theorem that
does not quantify over it). -/
def toLowerS (s : Str) : Str :=
  s.map fun c => if 'A' ≤ c ∧ c ≤ 'Z' then Char.ofNat (c.toNat + 32) else c

/-- Fuel-driven splitting loop for `splitOnSub`; every step consumes at
least one character, so fuel `s.length + 1` never runs out. -/
def splitGo (sep : Str) : Nat → Str → Str → List Str
  | 0, rem, cur => [cur.reverse ++ rem]
  | _ + 1, [], cur => [cur.reverse]
  | fuel + 1, c :: rest, cur =>
    if sep ≠ [] ∧ sep.isPrefixOf (c :: rest) then
      cur.reverse :: splitGo sep fuel ((c :: rest).drop sep.length) []
    else
      splitGo sep fuel rest (c :: cur)

/-- Go `strings.Split(s, sep)` for a nonempty separator. -/
def splitOnSub (s sep : Str) : List Str :=
  splitGo sep (s.length + 1) s []

/-! ## numericTokens (options.go) -/

/-- Decimal value of a digit run, exactly as `big.Int.SetString(_, 10)`
computes it (leading zeros are dropped; runs are always nonnegative). -/
def natOfDigits (s : Str) : Nat :=
  s.foldl (fun acc c => acc * 10 + (c.toNat - 48)) 0

/-- Single-pass run builder: the open run is carried (in reversed
order) and flushed whenever the digit/non-digit kind changes. -/
def runsGo : Option (Bool × Str) → Str → List (Bool × Str)
  | none, [] => []
  | some r, [] => [(r.1, r.2.reverse)]
  | none, c :: rest => runsGo (some (isDigitGo c, [c])) rest
  | some r, c :: rest =>
    if isDigitGo c = r.1 then runsGo (some (r.1, c :: r.2)) rest
    else (r.1, r.2.reverse) :: runsGo (some (isDigitGo c, [c])) rest

/-- Splits a string into its maximal runs of digits / non-digits, in
order, tagging each run with whether it is a digit run. This is what
`mixedNumberPattern.FindAllStringSubmatch(s, -1)` yields. -/
def numRuns (s : Str) : List (Bool × Str) := runsGo none s

/-- The result of parsing the numeric tokens out of a string
(`numericTokens` in options.go): interleaved string runs `s` and number
runs `i`, always starting with a (possibly empty) string run. -/
structure NumericTokens where
  s : List Str
  i : List Nat
deriving Repr, DecidableEq

/-- Total number of runs (`numericTokens.len`). -/
def NumericTokens.len (t : NumericTokens) : Nat := t.s.length + t.i.length

/-- Comparison loop of `numericTokens.compare`: the remaining iteration
count is the structural fuel (the loop runs exactly `min len len` times
when started with that fuel); run-by-run, strings lexicographically at
even positions, numbers by magnitude at odd positions; when all
compared runs are equal the tie breaks by total run count. -/
def ntCompareAux (t o : NumericTokens) (idx : Nat) : Nat → Int
  | 0 => Int.ofNat t.len - Int.ofNat o.len
  | rem + 1 =>
    let c :=
      if idx % 2 = 0 then strCmp (t.s.getD (idx / 2) []) (o.s.getD (idx / 2) [])
      else Int.ofNat (t.i.getD (idx / 2) 0) - Int.ofNat (o.i.getD (idx / 2) 0)
    if c ≠ 0 then c else ntCompareAux t o (idx + 1) rem

/-- `numericTokens.compare` from options.go. -/
def NumericTokens.compare (t o : NumericTokens) : Int :=
  ntCompareAux t o 0 (min t.len o.len)

/-! ## blockOptions (options.go) -/

/-- The option record driving the engine (`blockOptions` in options.go).
String sets (Go `map[string]bool`) are lists consulted only through
any-element predicates, so iteration order is immaterial. The
`allowYAMLLists` field only affects the abstracted key=value parser and
is omitted. -/
structure BlockOpts where
  skipLines : Int := 0
  group : Bool := false
  groupPrefixes : List Str := []
  block : Bool := false
  stickyComments : Bool := false
  stickyPrefixes : List Str := []
  caseSensitive : Bool := false
  numeric : Bool := false
  prefixOrder : List Str := []
  ignorePrefixes : List Str := []
  commentOrder : Bool := false
  newlineSeparated : Bool := false
  removeDuplicates : Bool := false
  commentMarker : Str := []
deriving Repr, DecidableEq

/-- `defaultOptions` from options.go. -/
def defaultOpts : BlockOpts :=
  { group := true, stickyComments := true, caseSensitive := true,
    removeDuplicates := true }

/-- Go helper `hasPrefix(s, prefixes)`: `s` is left-trimmed and checked
against every element of the set. -/
def hasPrefixIn (s : Str) (prefixes : List Str) : Bool :=
  if prefixes.isEmpty then false
  else prefixes.any fun p => p.isPrefixOf (trimLeftSpace s)

/-- `blockOptions.hasStickyPrefix`. -/
def BlockOpts.hasStickyPre (opts : BlockOpts) (s : Str) : Bool :=
  hasPrefixIn s opts.stickyPrefixes

/-- `blockOptions.hasGroupPrefix`. -/
def BlockOpts.hasGroupPre (opts : BlockOpts) (s : Str) : Bool :=
  hasPrefixIn s opts.groupPrefixes

/-- `blockOptions.removeIgnorePrefix`: removes the first matching ignore
prefix, returning `none` when no prefix matches (Go returns `"", false`). -/
def BlockOpts.removeIgnorePre (opts : BlockOpts) (s : Str) : Option Str :=
  let t := trimLeftSpace s
  match opts.ignorePrefixes.find? (fun p => p.isPrefixOf t) with
  | some p => some (removeFirst s p)
  | none => none

/-- `blockOptions.maybeParseNumeric`. -/
def BlockOpts.maybeParseNumeric (opts : BlockOpts) (str : Str) : NumericTokens :=
  if !opts.numeric then ⟨[str], []⟩
  else
    (numRuns str).foldl
      (fun t run =>
        if run.1 then
          let t := if t.len = 0 then { t with s := t.s ++ [[]] } else t
          { t with i := t.i ++ [natOfDigits run.2] }
        else
          { t with s := t.s ++ [run.2] })
      ⟨[], []⟩

/-- `guessCommentMarker` from options.go. -/
def guessCommentMarker (startLine : Str) : Str :=
  let t := trimSpace startLine
  if ( "//".toList ).isPrefixOf t then "//".toList
  else if ( "#".toList ).isPrefixOf t then "#".toList
  else if ( "/*".toList ).isPrefixOf t then "/*".toList
  else if ( "--".toList ).isPrefixOf t then "--".toList
  else if ( ";".toList ).isPrefixOf t then ";".toList
  else if ( "<!--".toList ).isPrefixOf t then "<!--".toList
  else []

/-- `blockOptions.setCommentMarker`: records the marker and, when sticky
comments are enabled, adds it to the sticky-prefix set. -/
def BlockOpts.setCommentMarker (opts : BlockOpts) (marker : Str) : BlockOpts :=
  { opts with
    commentMarker := marker
    stickyPrefixes :=
      if opts.stickyComments then
        if opts.stickyPrefixes.contains marker then opts.stickyPrefixes
        else opts.stickyPrefixes ++ [marker]
      else opts.stickyPrefixes }

/-- `validate` from options.go: negative `skip_lines` and
`group_prefixes` without `group` are reset to defaults with a warning
(warnings are counted, their text is immaterial here). -/
def validateOpts (opts : BlockOpts) : BlockOpts × Nat :=
  let (opts, w1) :=
    if opts.skipLines < 0 then ({ opts with skipLines := 0 }, 1) else (opts, 0)
  let (opts, w2) :=
    if opts.groupPrefixes ≠ [] ∧ !opts.group then
      ({ opts with groupPrefixes := [] }, 1)
    else (opts, 0)
  (opts, w1 + w2)

/-! ## lineGroup (line_group.go, the generation matched by block.go) -/

/-- A line group: sticky comment lines plus content lines. In Go the two
line slices alias the working buffer; `lastIdx` records the buffer index
of the group's final content line so that the in-place writes of
`lineGroup.append` / `lineGroup.trimSuffix` can be mirrored on the
buffer. -/
structure LineGroup where
  comment : List Str := []
  lines : List Str := []
  lastIdx : Option Nat := none
deriving Repr, DecidableEq

/-- Whether a string's final character is a word character. -/
def endsWord (s : Str) : Bool :=
  match s.getLast? with
  | some c => isWordChar c
  | none => false

/-- Whether a string's first character is a word character. -/
def startsWord (s : Str) : Bool :=
  match s.head? with
  | some c => isWordChar c
  | none => false

/-- The loop of `lineGroup.joinedLines`, carrying the previous trimmed
line: lines are left-trimmed and concatenated, a single space inserted
only between a word character and a word character. -/
def joinGo : Str → List Str → Str
  | _, [] => []
  | last, l :: ls =>
    let t := trimLeftSpace l
    let sep : Str :=
      if last ≠ [] ∧ t ≠ [] ∧ endsWord last ∧ startsWord t then [' '] else []
    sep ++ t ++ joinGo t ls

/-- `lineGroup.joinedLines`. -/
def joinedLinesOf (lines : List Str) : Str := joinGo [] lines

/-- `lineGroup.joinedLines` on a group. -/
def LineGroup.joined (lg : LineGroup) : Str := joinedLinesOf lg.lines

/-- The comment text used as final tiebreaker (`strings.Join(lg.comment, "\n")`). -/
def LineGroup.joinedComment (lg : LineGroup) : Str := joinWith [ '\n' ] lg.comment

/-- `lineGroup.less`: joined content, then joined comment. -/
def LineGroup.lessG (lg other : LineGroup) : Int :=
  let c := strCmp lg.joined other.joined
  if c ≠ 0 then c else strCmp lg.joinedComment other.joinedComment

/-- `lineGroup.hasPrefix`: prefix of the joined content. -/
def LineGroup.hasPre (lg : LineGroup) (p : Str) : Bool :=
  p.isPrefixOf lg.joined

/-- `lineGroup.hasSuffix`: the group has content and its last line ends
with the given suffix. -/
def LineGroup.hasSuf (lg : LineGroup) (s : Str) : Bool :=
  lg.lines ≠ [] ∧ hasSuffixS (lg.lines.getLastD []) s

/-- `lineGroup.append`: appends to the final content line (in Go this
writes through to the shared backing array). -/
def LineGroup.appendStr (lg : LineGroup) (s : Str) : LineGroup :=
  { lg with lines := lg.lines.dropLast ++ [lg.lines.getLastD [] ++ s] }

/-- `lineGroup.trimSuffix`: trims one occurrence from the final content
line (in Go this writes through to the shared backing array). -/
def LineGroup.trimSuf (lg : LineGroup) (s : Str) : LineGroup :=
  { lg with lines := lg.lines.dropLast ++ [trimSuffixOnce (lg.lines.getLastD []) s] }

/-- `lineGroup.allLines`: comment lines then content lines. -/
def LineGroup.allLines (lg : LineGroup) : List Str := lg.comment ++ lg.lines

/-! ## codeBlock (block=yes continuation detection) -/

/-- Double quote, single quote and backquote characters. -/
def dqChar : Char := '"'

/-- Single quote. -/
def sqChar : Char := '\''

/-- Backquote. -/
def bqChar : Char := Char.ofNat 96

/-- The quote tokens recognized by `findQuote`, in the source's priority
order: the three triple quotes, then the three single-character quotes. -/
def quoteTokens : List Str :=
  [ [dqChar, dqChar, dqChar], [sqChar, sqChar, sqChar], [bqChar, bqChar, bqChar],
    [dqChar], [sqChar], [bqChar] ]

/-- Brace/quote-balance state (`codeBlock`). -/
structure CodeBlock where
  curlyO : Nat := 0
  curlyC : Nat := 0
  squareO : Nat := 0
  squareC : Nat := 0
  parenO : Nat := 0
  parenC : Nat := 0
  expectedQuote : Str := []
deriving Repr, DecidableEq

/-- `codeBlock.expectsContinuation`. -/
def CodeBlock.expects (cb : CodeBlock) : Bool :=
  cb.curlyO ≠ cb.curlyC ∨ cb.squareO ≠ cb.squareC ∨ cb.parenO ≠ cb.parenC ∨
    cb.expectedQuote ≠ []

/-- Brace counting for one character (the `braces` loop in
`codeBlock.append`). -/
def countBrace (cb : CodeBlock) (c : Char) : CodeBlock :=
  let cb := if c = '{' then { cb with curlyO := cb.curlyO + 1 } else cb
  let cb := if c = '}' then { cb with curlyC := cb.curlyC + 1 } else cb
  let cb := if c = '[' then { cb with squareO := cb.squareO + 1 } else cb
  let cb := if c = ']' then { cb with squareC := cb.squareC + 1 } else cb
  let cb := if c = '(' then { cb with parenO := cb.parenO + 1 } else cb
  let cb := if c = ')' then { cb with parenC := cb.parenC + 1 } else cb
  cb

/-- `findQuote(s, i)`: the first recognized quote token at the current
position; a single-character token preceded by a backslash is skipped. -/
def findQuote (prev : Option Char) (rem : Str) : Option Str :=
  quoteTokens.find? fun q =>
    q.length ≤ rem.length ∧ ¬(q.length = 1 ∧ prev = some '\\') ∧ q.isPrefixOf rem

/-- The character scan of `codeBlock.append`. `fuel` starts at the line
length; every step consumes at least one character, so fuel never runs
out before the line does. -/
def cbAppendGo (opts : BlockOpts) : Nat → Option Char → Str → CodeBlock → CodeBlock
  | 0, _, _, cb => cb
  | _ + 1, _, [], cb => cb
  | fuel + 1, prev, c :: rest, cb =>
    let cb1 := if cb.expectedQuote = [] then countBrace cb c else cb
    if cb.expectedQuote = [] ∧ opts.commentMarker ≠ [] ∧
        opts.commentMarker.isPrefixOf (c :: rest) then
      cb1
    else
      match findQuote prev (c :: rest) with
      | some q =>
        if cb.expectedQuote = [] then
          cbAppendGo opts fuel (some (q.getLastD ' ')) ((c :: rest).drop q.length)
            { cb1 with expectedQuote := q }
        else if cb.expectedQuote = q then
          cbAppendGo opts fuel (some (q.getLastD ' ')) ((c :: rest).drop q.length)
            { cb1 with expectedQuote := [] }
        else
          cbAppendGo opts fuel (some c) rest cb1
      | none =>
        cbAppendGo opts fuel (some c) rest cb1

/-- `codeBlock.append`. -/
def CodeBlock.appendLine (cb : CodeBlock) (s : Str) (opts : BlockOpts) : CodeBlock :=
  cbAppendGo opts s.length none s cb

/-! ## indentation precomputation -/

/-- `countIndent` mapped to the `-1` convention of `calculateIndents`:
the number of leading whitespace runes, or `-1` for an all-whitespace
line. -/
def baseIndent (s : Str) : Int :=
  let c := (s.takeWhile isSpaceGo).length
  if c = s.length then -1 else Int.ofNat c

/-- The backwards fill of `calculateIndents`: an all-whitespace line
takes the indent of the next following non-blank line. Returns the
filled list together with the indent seen so far (initially `-1`). -/
def fillIndents : List Int → List Int × Int
  | [] => ([], -1)
  | x :: xs =>
    let (rest, ind) := fillIndents xs
    if x = -1 then (ind :: rest, ind) else (x :: rest, x)

/-- `calculateIndents`. -/
def calculateIndents (lines : List Str) : List Int :=
  (fillIndents (lines.map baseIndent)).1

/-! ## groupLines (line grouping engine, the generation matched by block.go) -/

/-- Block metadata: the two directive substrings plus the options
(`blockMetadata`). -/
structure BlockMeta where
  startDirective : Str
  endDirective : Str
  opts : BlockOpts
deriving Repr, DecidableEq

/-- Scan state of `groupLines`: finished groups, the open comment and
content accumulators (Go keeps index ranges into the shared buffer; the
accumulated values are identical because appends are always contiguous),
the buffer index of the last appended content line, the group-mode
initial indent (set once, never reset), the nested-start counter, and
the block-mode balance state. -/
structure GLState where
  groups : List LineGroup := []
  cAcc : List Str := []
  lAcc : List Str := []
  lastIdx : Option Nat := none
  initInd : Option Int := none
  num : Int := 0
  cb : CodeBlock := {}
deriving Repr

/-- The nested-directive counter update (`countStartDirectives` inlined
in `appendLine`). -/
def countDirs (md : BlockMeta) (l : Str) (n : Int) : Int :=
  if containsSub l md.startDirective then n + 1
  else if containsSub l md.endDirective then n - 1
  else n

/-- `appendLine` from `groupLines`: append the line to the open content
range; update the block-balance state in block mode, or the directive
counter in group mode. -/
def glAppend (md : BlockMeta) (i : Nat) (l : Str) (st : GLState) : GLState :=
  { st with
    lAcc := st.lAcc ++ [l]
    lastIdx := some i
    cb := if md.opts.block then st.cb.appendLine l md.opts else st.cb
    num := if !md.opts.block ∧ md.opts.group then countDirs md l st.num else st.num }

/-- `finishGroup`: move the open accumulators into a finished group and
reset them (the block-balance state is reset too; the initial indent and
the directive counter are not). -/
def glFinish (st : GLState) : GLState :=
  { st with
    groups := st.groups ++ [⟨st.cAcc, st.lAcc, st.lastIdx⟩]
    cAcc := []
    lAcc := []
    lastIdx := none
    cb := {} }

/-- One iteration of the `groupLines` scan over line `i` with text `l`. -/
def glStep (md : BlockMeta) (indents : List Int) (i : Nat) (l : Str)
    (st : GLState) : GLState :=
  if md.opts.block ∧ st.lAcc ≠ [] ∧ st.cb.expects then
    glAppend md i l st
  else if md.opts.group ∧
      ((st.lAcc ≠ [] ∧ st.initInd.isSome ∧
        indents.getD i 0 > st.initInd.getD 0) ∨ st.num > 0) then
    glAppend md i l st
  else if md.opts.group ∧ md.opts.hasGroupPre l then
    glAppend md i l st
  else if md.opts.hasStickyPre l then
    let st := if st.lAcc ≠ [] then glFinish st else st
    if !md.opts.block ∧ md.opts.group ∧ containsSub l md.startDirective then
      glAppend md i l st
    else
      { st with cAcc := st.cAcc ++ [l] }
  else
    let st := if st.lAcc ≠ [] then glFinish st else st
    let st :=
      if md.opts.group ∧ st.initInd.isNone then
        { st with initInd := some (indents.getD i 0) }
      else st
    glAppend md i l st

/-- The scan loop of `groupLines`. -/
def glRun (md : BlockMeta) (indents : List Int) : Nat → List Str → GLState → GLState
  | _, [], st => st
  | i, l :: rest, st => glRun md indents (i + 1) rest (glStep md indents i l st)

/-- `groupLines`: split a region's working lines into line groups. -/
def groupLines (md : BlockMeta) (work : List Str) : List LineGroup :=
  let indents := if md.opts.group then calculateIndents work else []
  let st := glRun md indents 0 work {}
  if st.cAcc ≠ [] ∨ st.lAcc ≠ [] then (glFinish st).groups else st.groups

/-! ## comparator (block.lessFn, block.go) -/

/-- `cmp.Compare` on ints. -/
def intCmp (a b : Int) : Int := if a < b then -1 else if b < a then 1 else 0

/-- Stable insertion: `x` is placed before the first element not
strictly below it, so earlier-input elements precede equal later ones. -/
def insertCmp (cmp : α → α → Int) (x : α) : List α → List α
  | [] => [x]
  | y :: ys => if cmp y x < 0 then y :: insertCmp cmp x ys else x :: y :: ys

/-- Stable sort by an int comparator. `slices.SortStableFunc` is a
stable ascending sort, and a stable sort by a total comparator is
unique, so insertion sort computes the same list. -/
def sortCmp (cmp : α → α → Int) : List α → List α
  | [] => []
  | x :: xs => insertCmp cmp x (sortCmp cmp xs)

/-- `slices.IsSortedFunc`: every element compares at least as large as
its predecessor. -/
def isSortedCmp (cmp : α → α → Int) : List α → Bool
  | [] => true
  | [_] => true
  | a :: b :: rest => cmp b a ≥ 0 ∧ isSortedCmp cmp (b :: rest)

/-- First comparator stage of `lessFn`: comment-only groups last. -/
def commentOnlyVal (lg : LineGroup) : Int := if lg.lines ≠ [] then 0 else 1

/-- The `(prefix, weight)` list of `lessFn`: weights `i - len` in
configuration order, then stably sorted by descending prefix string. -/
def prefixWeights (opts : BlockOpts) : List (Str × Int) :=
  let ws := opts.prefixOrder.enum.map
    fun p => (p.2, (Int.ofNat p.1) - Int.ofNat opts.prefixOrder.length)
  sortCmp (fun a b => strCmp b.1 a.1) ws

/-- Second comparator stage: first matching configured prefix (in the
sorted weight list) contributes its weight, otherwise 0. -/
def prefixOrderVal (opts : BlockOpts) (lg : LineGroup) : Int :=
  match (prefixWeights opts).find? (fun w => lg.hasPre w.1) with
  | some w => w.2
  | none => 0

/-- Third comparator stage key (`transformOrder`): ignore-prefix
removal, optional case folding, numeric tokenization. -/
def transformKey (opts : BlockOpts) (lg : LineGroup) : NumericTokens :=
  let l := lg.joined
  let l := match opts.removeIgnorePre l with
    | some s => s
    | none => l
  let l := if !opts.caseSensitive then toLowerS l else l
  opts.maybeParseNumeric l

/-- `block.lessFn`: comment-only groups last, then prefix order, then
the transform key, then raw joined-content/comment comparison. -/
def lessFn (opts : BlockOpts) (a b : LineGroup) : Int :=
  let c1 := intCmp (commentOnlyVal a) (commentOnlyVal b)
  if c1 ≠ 0 then c1
  else
    let c2 := intCmp (prefixOrderVal opts a) (prefixOrderVal opts b)
    if c2 ≠ 0 then c2
    else
      let c3 := (transformKey opts a).compare (transformKey opts b)
      if c3 ≠ 0 then c3 else a.lessG b

/-! ## trailing commas, newline separation, duplicates (block.go) -/

/-- The literal comma suffix. -/
def commaStr : Str := [ ',' ]

/-- Pointwise update of one buffer position (a write through the shared
backing array). -/
def modifyAt (l : List α) (k : Nat) (f : α → α) : List α :=
  match l, k with
  | [], _ => []
  | x :: xs, 0 => f x :: xs
  | x :: xs, k + 1 => x :: modifyAt xs k f

/-- Buffer mirror of `lineGroup.append(",")` at the group's final line. -/
def bufAppendComma (work : List Str) : Option Nat → List Str
  | some k => modifyAt work k (fun l => l ++ commaStr)
  | none => work

/-- Buffer mirror of `lineGroup.trimSuffix(",")` at the group's final line. -/
def bufTrimComma (work : List Str) : Option Nat → List Str
  | some k => modifyAt work k (fun l => trimSuffixOnce l commaStr)
  | none => work

/-- The condition of `handleTrailingComma`: more than one data group,
all but the last ending in a comma, the last not. -/
def commaCondition (groups : List LineGroup) : Bool :=
  let ds := groups.filter fun g => !g.lines.isEmpty
  ds.length > 1 ∧ ds.dropLast.all (fun g => g.hasSuf commaStr) ∧
    !(ds.getLastD {}).hasSuf commaStr

/-- `handleTrailingComma`, first half: when the condition holds, append
a comma to the last data group (mutating the shared buffer through the
group's aliased line). Returns the groups, the buffer, and whether the
trimming closure is armed. -/
def applyComma (groups : List LineGroup) (work : List Str) :
    List LineGroup × List Str × Bool :=
  if commaCondition groups then
    match groups.reverse.span (fun g => g.lines.isEmpty) with
    | (tail, g :: pre) =>
      (pre.reverse ++ [g.appendStr commaStr] ++ tail.reverse,
        bufAppendComma work g.lastIdx, true)
    | (_, []) => (groups, work, false)
  else (groups, work, false)

/-- The `trimTrailingComma` closure: trim one comma from the last group
that has content lines (again writing through the shared buffer). -/
def trimLastData (groups : List LineGroup) (work : List Str) :
    List LineGroup × List Str :=
  match groups.reverse.span (fun g => g.lines.isEmpty) with
  | (tail, g :: pre) =>
    (pre.reverse ++ [g.trimSuf commaStr] ++ tail.reverse,
      bufTrimComma work g.lastIdx)
  | (_, []) => (groups, work)

/-- `isNewline`: a group that is exactly one blank line with no comment. -/
def isNewlineG (lg : LineGroup) : Bool :=
  lg.comment.isEmpty ∧ lg.lines.length = 1 ∧ trimSpace (lg.lines.getD 0 []) = []

/-- Pair-walk of `isNewlineSeparated`. -/
def isNSGo : List LineGroup → Bool
  | [] => true
  | [g] => !isNewlineG g
  | g :: nl :: rest => !isNewlineG g ∧ isNewlineG nl ∧ isNSGo rest

/-- `isNewlineSeparated`: data and blank-line groups strictly alternate,
starting and ending with a data group. -/
def isNewlineSeparated (gs : List LineGroup) : Bool :=
  if gs.isEmpty then true
  else if gs.length % 2 = 0 then false
  else isNSGo gs

/-- The dedup signature: joined content, a newline, the joined comment. -/
def sigOf (lg : LineGroup) : Str := lg.joined ++ [ '\n' ] ++ lg.joinedComment

/-- The `RemoveDuplicates` fold: keep the first group per signature,
report whether anything was dropped. -/
def dedupGo (seen : List Str) : List LineGroup → List LineGroup × Bool
  | [] => ([], false)
  | g :: gs =>
    if seen.contains (sigOf g) then ((dedupGo seen gs).1, true)
    else
      (g :: (dedupGo (seen ++ [sigOf g]) gs).1, (dedupGo (seen ++ [sigOf g]) gs).2)

/-- Duplicate removal over a group list. -/
def dedupGroups (gs : List LineGroup) : List LineGroup × Bool := dedupGo [] gs

/-- The blank separator group re-inserted by `NewlineSeparated`. -/
def newlineGroup : LineGroup := { lines := [ [] ] }

/-- Separator re-insertion between every adjacent pair of groups. -/
def withSeparators : List LineGroup → List LineGroup
  | [] => []
  | [g] => [g]
  | g :: rest => g :: newlineGroup :: withSeparators rest

/-! ## block.sorted (block.go) -/

/-- The newline-separation stage of `block.sorted`: whether the groups
were already newline separated, and the groups with the blank separator
groups stripped. -/
def nsStage (md : BlockMeta) (groups1 : List LineGroup) :
    Bool × List LineGroup :=
  if md.opts.newlineSeparated then
    (isNewlineSeparated groups1, groups1.filter (fun g => !isNewlineG g))
  else (true, groups1)

/-- The duplicate-removal stage: the surviving groups and whether a
duplicate was dropped. -/
def dupStage (md : BlockMeta) (groups2 : List LineGroup) :
    List LineGroup × Bool :=
  if md.opts.removeDuplicates then dedupGroups groups2 else (groups2, false)

/-- The deferred `trimTrailingComma` closure: a no-op unless the comma
was appended. -/
def trimStage (commaFlag : Bool) (groups : List LineGroup) (work : List Str) :
    List LineGroup × List Str :=
  if commaFlag then trimLastData groups work else (groups, work)

/-- The per-region core of `block.sorted`, operating on the working
lines: grouping, trailing-comma normalization, newline-separation
bookkeeping, duplicate removal, the already-sorted check, and the stable
sort. Returns the lines the region contributes, the already-sorted flag,
the working buffer after the (append, trim) writes, and the final group
list before separator re-insertion. -/
def sortedCore (md : BlockMeta) (already : Bool) (work : List Str) :
    List Str × Bool × List Str × List LineGroup :=
  let c := applyComma (groupLines md work) work
  let ns := nsStage md c.1
  let d := dupStage md ns.2
  if already ∧ ns.1 ∧ !d.2 ∧ isSortedCmp (lessFn md.opts) d.1 then
    let t := trimStage c.2.2 d.1 c.2.1
    (t.2, true, t.2, t.1)
  else
    let t := trimStage c.2.2 (sortCmp (lessFn md.opts) d.1) c.2.1
    let out :=
      (if md.opts.newlineSeparated then withSeparators t.1 else t.1).flatMap
        LineGroup.allLines
    (out, false, t.2, t.1)

/-- A keep-sorted block: 1-based start/end directive line numbers, the
metadata, and the directly nested blocks (`block` in block.go). The
content lines live in the shared file buffer at indices
`[startL, endL - 1)`. -/
inductive Block where
  | mk (startL endL : Nat) (md : BlockMeta) (nested : List Block)
deriving Repr

/-- Start directive line number. -/
def Block.startL : Block → Nat
  | .mk s _ _ _ => s

/-- End line number (one past the content, at the trimmed end index). -/
def Block.endL : Block → Nat
  | .mk _ e _ _ => e

/-- Block metadata. -/
def Block.md : Block → BlockMeta
  | .mk _ _ m _ => m

/-- Directly nested blocks. -/
def Block.nested : Block → List Block
  | .mk _ _ _ n => n

/-- The slice `buf[a:b]` of the shared buffer. -/
def extractR (buf : List Str) (a b : Nat) : List Str := (buf.take b).drop a

/-- Writing back a region of the shared buffer. -/
def writeR (buf : List Str) (a b : Nat) (w : List Str) : List Str :=
  buf.take a ++ w ++ buf.drop b

/-- A block's content lines as read from the current buffer. -/
def contentOf (buf : List Str) (b : Block) : List Str :=
  extractR buf b.startL (b.endL - 1)

/-- The working-buffer rebuild of `block.sorted` when some nested block
changed: unchanged spans are copied, each changed nested block's span is
replaced by its corrected lines. -/
def rebuildChunks (bStart : Nat) (content : List Str) :
    List (Block × (List Str × Bool)) → Nat → List Str
  | [], cursor => content.drop cursor
  | nr :: rest, cursor =>
    if nr.2.2 then rebuildChunks bStart content rest cursor
    else
      let off := nr.1.startL - bStart
      (content.drop cursor).take (off - cursor) ++ nr.2.1 ++
        rebuildChunks bStart content rest (off + (nr.1.endL - 1 - nr.1.startL))

mutual

/-- `block.sorted` with the shared file buffer threaded explicitly:
returns the corrected lines, the already-sorted flag, and the buffer
after the call (reflecting the in-place trailing-comma writes, which in
the aliasing case land in the file buffer itself). -/
def sortedB (buf : List Str) : Block → List Str × Bool × List Str
  | .mk s e md nested =>
    let nr := sortedList buf nested
    let results := nr.1
    let buf1 := nr.2
    let already := results.all (fun r => r.2)
    let content := extractR buf1 s (e - 1)
    let work0 :=
      if already then content else rebuildChunks s content (nested.zip results) 0
    let r := sortedCore md already work0
    let buf2 := if already then writeR buf1 s (e - 1) r.2.2.1 else buf1
    (r.1, r.2.1, buf2)

/-- Sequential processing of the nested blocks, threading the buffer. -/
def sortedList (buf : List Str) : List Block → List (List Str × Bool) × List Str
  | [] => ([], buf)
  | b :: bs =>
    let r := sortedB buf b
    let rs := sortedList r.2.2 bs
    ((r.1, r.2.1) :: rs.1, rs.2)

end

/-! ## findings data model (keep_sorted.go) -/

/-- Which directive a line carried (`directive`). -/
inductive Dir where
  | startD
  | endD
deriving Repr, DecidableEq

/-- Finding messages. The Go messages are formatted strings; only their
identity matters to the claims, so they are modelled as tags:
`unordered` is `errorUnordered`, `missing d` is `errorMissingDirective`
for an unmatched directive of kind `d`, and `optionWarn` is an
option-parse warning. -/
inductive Msg where
  | unordered
  | missing (d : Dir)
  | optionWarn
deriving Repr, DecidableEq

/-- `Replacement`: a 1-based inclusive line range and the new content. -/
structure Repl where
  lines : Nat × Nat
  newContent : Str
deriving Repr, DecidableEq

/-- `Fix`: replacements plus the unexported `automatic` flag. -/
structure FixRec where
  repls : List Repl
  automatic : Bool
deriving Repr, DecidableEq

/-- `Finding` (the file path is a single constant and omitted). -/
structure Finding where
  lines : Nat × Nat
  msg : Msg
  fixes : List FixRec
deriving Repr, DecidableEq

/-- `linesToString`: every line, including the last, is terminated. -/
def linesToString (ls : List Str) (ending : Str) : Str := joinWith ending ls ++ ending

/-- `lines(s)` from keep_sorted.go: split on the detected line-ending
style, `\r\n` before `\r` before `\n`. -/
def linesAndEnding (s : Str) : List Str × Str :=
  if containsSub s [ '\r', '\n' ] then (splitOnSub s [ '\r', '\n' ], [ '\r', '\n' ])
  else if containsSub s [ '\r' ] then (splitOnSub s [ '\r' ], [ '\r' ])
  else (splitOnSub s [ '\n' ], [ '\n' ])

/-! ## newBlocks (block discovery, block.go) -/

/-- Parameters of a scan: the two directive substrings, the abstracted
key=value option parser (returning the options and a warning count),
the file lines, the index offset, and the caller's include filter. -/
structure NBParams where
  startDir : Str
  endDir : Str
  parseKeys : Str → BlockOpts × Nat
  lines : List Str
  offset : Nat
  includeF : Nat → Nat → Bool

/-- The post-loop half of `parseBlockOptions`: comment-marker
detection, ignore-prefix reordering (longest first; equal-length
distinct prefixes never match the same string, so the unstable Go sort
and this stable one are interchangeable), and `validate`. -/
def parseOptsFull (parseKeys : Str → BlockOpts × Nat) (cm optionsStr : Str) :
    BlockOpts × Nat :=
  let p := parseKeys optionsStr
  let o := p.1
  let o :=
    if guessCommentMarker cm ≠ [] then o.setCommentMarker (guessCommentMarker cm)
    else o
  let o :=
    { o with
      ignorePrefixes :=
        sortCmp (fun a b : Str => intCmp b.length a.length) o.ignorePrefixes }
  let v := validateOpts o
  (v.1, p.2 + v.2)

/-- The backward walk excluding blank lines adjacent to the end
directive from the sortable content. -/
def backTrim (lines : List Str) (si : Nat) : Nat → Nat
  | 0 => 0
  | e + 1 =>
    if e + 1 > si ∧ trimSpace (lines.getD e []) = [] then backTrim lines si e
    else e + 1

/-- Scan state of `newBlocks`: the stack of pending starts, the
per-depth pending nested blocks, the finished top-level blocks, the
unmatched directives, and the option warnings (as findings). -/
structure NBState where
  starts : List (Nat × Str) := []
  nested : List (List Block) := []
  blocks : List Block := []
  incomplete : List (Nat × Dir) := []
  warnFs : List Finding := []

/-- Option-warning findings at the start-directive line. -/
def mkWarnFindings (line count : Nat) : List Finding :=
  (List.range count).map fun _ => ⟨(line, line), .optionWarn, []⟩

/-- Pad the per-depth nested list up to the given length. -/
def padTo (l : List (List Block)) (n : Nat) : List (List Block) :=
  l ++ List.replicate (n - l.length) []

/-- One `newBlocks` scan step on line `i` with text `l`. -/
def nbStep (P : NBParams) (i : Nat) (l : Str) (st : NBState) : NBState :=
  if containsSub l P.startDir then { st with starts := st.starts ++ [(i, l)] }
  else if containsSub l P.endDir then
    match st.starts.getLast? with
    | none => { st with incomplete := st.incomplete ++ [(i + P.offset, .endD)] }
    | some se =>
      let si := se.1
      let starts' := st.starts.dropLast
      let endIndex := backTrim P.lines si i
      if !P.includeF (si + P.offset) (endIndex + P.offset) then
        { st with starts := starts' }
      else
        let cut := cutAt se.2 P.startDir
        let pw := parseOptsFull P.parseKeys cut.1 cut.2
        let warnFs := st.warnFs ++ mkWarnFindings (si + P.offset) pw.2
        let si2 := si + pw.1.skipLines.toNat
        if si2 > endIndex then { st with starts := starts', warnFs := warnFs }
        else
          let depth := starts'.length
          let nestedOf :=
            if st.nested.length = depth + 1 then st.nested.getD depth [] else []
          let nested1 :=
            if st.nested.length = depth + 1 then st.nested.take depth else st.nested
          let blk := Block.mk (si2 + P.offset) (endIndex + P.offset)
            ⟨P.startDir, P.endDir, pw.1⟩ nestedOf
          if depth = 0 then
            { st with
              starts := starts'
              warnFs := warnFs
              nested := nested1
              blocks := st.blocks ++ [blk] }
          else
            let nested2 := padTo nested1 depth
            let nested3 := modifyAt nested2 (depth - 1) (fun ls => ls ++ [blk])
            { st with starts := starts', warnFs := warnFs, nested := nested3 }
  else st

/-- The `newBlocks` scan loop. -/
def nbRun (P : NBParams) : Nat → List Str → NBState → NBState
  | _, [], st => st
  | i, l :: rest, st => nbRun P (i + 1) rest (nbStep P i l st)

/-- End-of-file handling of `newBlocks`: leftover starts become
unmatched start directives and all pending nested blocks are flushed to
the top level. -/
def nbFinalize (P : NBParams) (st : NBState) :
    List Block × List (Nat × Dir) × List Finding :=
  if st.starts ≠ [] then
    (st.blocks ++ st.nested.flatten,
      st.incomplete ++ st.starts.map (fun p => (p.1 + P.offset, Dir.startD)),
      st.warnFs)
  else (st.blocks, st.incomplete, st.warnFs)

/-- `Fixer.newBlocks`. -/
def newBlocks (P : NBParams) : List Block × List (Nat × Dir) × List Finding :=
  nbFinalize P (nbRun P 0 P.lines {})

/-! ## findings and Fix (keep_sorted.go) -/

/-- The per-block half of `Fixer.findings`, threading the shared
buffer: each block that is not already sorted contributes one finding
whose single fix is automatic exactly when there are no incomplete
blocks. -/
def blocksFold (ending : Str) (auto : Bool) :
    List Block → List Str → List Finding × List Str
  | [], buf => ([], buf)
  | b :: bs, buf =>
    let r := sortedB buf b
    let rest := blocksFold ending auto bs r.2.2
    if r.2.1 then rest
    else
      (⟨(b.startL + 1, b.endL - 1), .unordered,
          [⟨[⟨(b.startL + 1, b.endL - 1), linesToString r.1 ending⟩], auto⟩]⟩ ::
        rest.1, rest.2)

/-- `Fixer.findings`: option warnings, unmatched-directive findings
(single-line range, one non-automatic deletion fix), then the per-block
findings, sorted by start line. Also returns the buffer after all
`sorted` calls. -/
def findingsRun (P : NBParams) (ending : Str) : List Finding × List Str :=
  let nb := newBlocks P
  let incFs : List Finding := nb.2.1.map fun p =>
    ⟨(p.1, p.1), .missing p.2, [⟨[⟨(p.1, p.1), []⟩], false⟩]⟩
  let bf := blocksFold ending nb.2.1.isEmpty nb.1 P.lines
  (sortCmp (fun a b => intCmp (Int.ofNat a.lines.1) (Int.ofNat b.lines.1))
    (nb.2.2 ++ incFs ++ bf.1), bf.2)

/-- The splice loop of `Fixer.Fix`: findings with an automatic fix are
applied; the others are returned as warnings; the gaps are emitted from
the (possibly mutated) shared buffer. -/
def fixGo (buf : List Str) (ending : Str) : List Finding → Nat → Str × List Finding
  | [], startLine => (joinWith ending (buf.drop (startLine - 1)), [])
  | f :: fs, startLine =>
    match f.fixes.find? (fun fx => fx.automatic) with
    | none =>
      let r := fixGo buf ending fs startLine
      (r.1, f :: r.2)
    | some fx =>
      let repl := fx.repls.getD 0 ⟨(1, 1), []⟩
      let chunk := linesToString (extractR buf (startLine - 1) (repl.lines.1 - 1)) ending
      let r := fixGo buf ending fs (repl.lines.2 + 1)
      (chunk ++ repl.newContent ++ r.1, r.2)

/-- `Fixer.Fix`: returns the fixed contents, whether the file was
already correct, and the findings that could not be fixed
automatically. -/
def fixContents (startDir endDir : Str) (parseKeys : Str → BlockOpts × Nat)
    (contents : Str) : Str × Bool × List Finding :=
  let le := linesAndEnding contents
  let P : NBParams :=
    ⟨startDir, endDir, parseKeys, le.1, 1, fun _ _ => true⟩
  let fr := findingsRun P le.2
  if fr.1.isEmpty then (contents, true, [])
  else
    let r := fixGo fr.2 le.2 fr.1 1
    (r.1, false, r.2)

/-- The default start directive of `New("keep-sorted", ...)`. -/
def ksStart : Str := "keep-sorted start".toList

/-- The default end directive. -/
def ksEnd : Str := "keep-sorted end".toList

/-- `Fixer.Fix` for the default fixer `New("keep-sorted", defaults)`
with an option parser that leaves every option at its default (the
start lines used in the concrete files below carry no options). -/
def fixDefault (contents : Str) : Str × Bool × List Finding :=
  fixContents ksStart ksEnd (fun _ => (defaultOpts, 0)) contents

/-! ## prefixOrder (the current-generation implementation,
`newPrefixOrder` / `prefixOrder.match`) -/

/-- `blockOptions.cutFirstPrefix`: the first prefix of the sequence that
the (left-trimmed, optionally case-folded) string starts with, together
with the string after that prefix. -/
def cutFirst (opts : BlockOpts) (s : Str) (prefixes : List Str) :
    Option (Str × Str) :=
  let t0 := trimLeftSpace s
  let t := if !opts.caseSensitive then toLowerS t0 else t0
  match prefixes.find? (fun p =>
      (if !opts.caseSensitive then toLowerS p else p).isPrefixOf t) with
  | some p => some (p, trimLeftSpace (t0.drop p.length))
  | none => none

/-- The precomputed prefix-order state (`prefixOrder`): the
weight table in configuration order and the prefixes sorted longest
first (stably). -/
structure PrefixOrderT where
  opts : BlockOpts
  weights : List (Str × Int)
  prefixes : List Str
deriving Repr

/-- Go map lookup on the weight table: later assignments overwrite
earlier ones, a missing key yields 0. -/
def weightLookup (wl : List (Str × Int)) (p : Str) : Int :=
  match wl.reverse.find? (fun w => w.1 = p) with
  | some w => w.2
  | none => 0

/-- `newPrefixOrder`: `none` when no prefix order is configured,
otherwise weights `i - len` in configuration order and the prefixes
sorted longest first. -/
def newPrefixOrder (opts : BlockOpts) : Option PrefixOrderT :=
  if opts.prefixOrder.isEmpty then none
  else
    some
      { opts := opts
        weights := opts.prefixOrder.enum.map fun p =>
          (p.2, Int.ofNat p.1 - Int.ofNat opts.prefixOrder.length)
        prefixes := sortCmp (fun a b : Str => intCmp b.length a.length)
          opts.prefixOrder }

/-- `prefixOrder.match`: the matched prefix and its weight
(`orderedPrefix`); a `nil` order or no match yields the zero value. -/
def poMatch (po : Option PrefixOrderT) (s : Str) : Str × Int :=
  match po with
  | none => ([], 0)
  | some o =>
    let pre :=
      match cutFirst o.opts s o.prefixes with
      | some pa => pa.1
      | none => []
    (pre, weightLookup o.weights pre)

/-! ## groupLines, current generation (line_group.go). The delimiter
regexes of its options record live outside the snapshot, so regex
matching is abstracted as a line predicate; everything else is
embedded concretely. -/

/-- `appendLine` of the current-generation `groupLines`: block balance
and the directive counter are updated independently, and the initial
indent is recorded here on the first content line. -/
def glAppendNew (md : BlockMeta) (indents : List Int) (i : Nat) (l : Str)
    (st : GLState) : GLState :=
  { st with
    lAcc := st.lAcc ++ [l]
    lastIdx := some i
    cb := if md.opts.block then st.cb.appendLine l md.opts else st.cb
    num := if md.opts.group then countDirs md l st.num else st.num
    initInd :=
      if md.opts.group ∧ st.initInd.isNone then some (indents.getD i 0)
      else st.initInd }

/-- One scan step of the current-generation `groupLines`. `delims`
states whether delimiter regexes are configured and `delimMatch`
whether one of them matches the line. -/
def glStepNew (md : BlockMeta) (delims : Bool) (delimMatch : Str → Bool)
    (indents : List Int) (i : Nat) (l : Str) (st : GLState) : GLState :=
  if md.opts.block ∧ st.lAcc ≠ [] ∧ st.cb.expects then
    glAppendNew md indents i l st
  else if md.opts.group ∧
      ((st.lAcc ≠ [] ∧ st.initInd.isSome ∧
        indents.getD i 0 > st.initInd.getD 0) ∨ st.num > 0) then
    glAppendNew md indents i l st
  else if md.opts.group ∧ md.opts.hasGroupPre l then
    glAppendNew md indents i l st
  else if md.opts.hasStickyPre l then
    let st := if st.lAcc ≠ [] then glFinish st else st
    { st with
      cAcc := st.cAcc ++ [l]
      num := if md.opts.group then countDirs md l st.num else st.num }
  else if delims then
    let st := glAppendNew md indents i l st
    if delimMatch l then glFinish st else st
  else
    let st := if st.lAcc ≠ [] then glFinish st else st
    glAppendNew md indents i l st

/-- The scan loop of the current-generation `groupLines`. -/
def glRunNew (md : BlockMeta) (delims : Bool) (delimMatch : Str → Bool)
    (indents : List Int) : Nat → List Str → GLState → GLState
  | _, [], st => st
  | i, l :: rest, st =>
    glRunNew md delims delimMatch indents (i + 1) rest
      (glStepNew md delims delimMatch indents i l st)

/-- The current-generation `groupLines`. -/
def groupLinesNew (md : BlockMeta) (delims : Bool) (delimMatch : Str → Bool)
    (work : List Str) : List LineGroup :=
  let indents := if md.opts.group then calculateIndents work else []
  let st := glRunNew md delims delimMatch indents 0 work {}
  if st.cAcc ≠ [] ∨ st.lAcc ≠ [] then (glFinish st).groups else st.groups

/-! ## C3: grouping is a partition -/

/-- Concatenation of every group's comment lines followed by its
content lines. -/
def flatGroups (gs : List LineGroup) : List Str :=
  gs.flatMap fun g => g.comment ++ g.lines

/-- Lines accounted for by a grouping scan state: finished groups, then
the open comment lines, then the open content lines. -/
def flatS (st : GLState) : List Str := flatGroups st.groups ++ (st.cAcc ++ st.lAcc)

/-- A one-line file consisting of a single dangling end directive. -/
def p10 : NBParams :=
  ⟨( "x start".toList ), ( "x end".toList ), (fun _ => (defaultOpts, 0)),
    [ "x end".toList ], 1, fun _ _ => true⟩

/-- A file on which fixing is not idempotent: re-grouping the fixed
output merges the previously separate groups `z!` and `  z!!` (the
group-mode initial indent is taken from the first group of the whole
scan and the indented line now follows a less-indented one), and the
merged group's joined content sorts after `z!a`. -/
def fileC1 : Str := "keep-sorted start\n  z!!\nz!a\nz!\nkeep-sorted end".toList

/-- A file whose single block triggers the trailing-comma
normalization: content lines `b,`, `a`. -/
def buf9 : List Str := [ ksStart, "b,".toList, "a".toList, ksEnd ]

/-- The block discovered in `buf9`. -/
def blk9 : Block := .mk 1 4 ⟨ksStart, ksEnd, defaultOpts⟩ []

/-- A file with a dangling end directive followed by a well-formed but
unsorted block whose contents trigger the trailing-comma mutation. -/
def fileC5 : Str :=
  "keep-sorted end\nkeep-sorted start\nb,\na\nkeep-sorted end".toList

/-- The scan parameters for `fileC5` under the default fixer. -/
def pC5 : NBParams :=
  ⟨ksStart, ksEnd, (fun _ => (defaultOpts, 0)), (linesAndEnding fileC5).1, 1,
    fun _ _ => true⟩

/-- The already-sorted condition of `block.sorted`, spelled out on the
working lines: the newline-separation pattern already held, no
duplicate was removed, and the (comma-normalized, filtered, deduped)
groups are non-decreasing under the full comparator; `already` carries
whether every nested block was already sorted. -/
def coreCond (md : BlockMeta) (already : Bool) (work : List Str) : Bool :=
  let c := applyComma (groupLines md work) work
  let ns := nsStage md c.1
  let d := dupStage md ns.2
  already && ns.1 && !d.2 && isSortedCmp (lessFn md.opts) d.1

/-- The already-sorted condition of a block against the current file
buffer: every nested block already sorted, and `coreCond` on the
(unchanged) content lines. -/
def alreadyCond (buf : List Str) (b : Block) : Bool :=
  let nr := sortedList buf b.nested
  let already := nr.1.all (fun r => r.2)
  let content := extractR nr.2 b.startL (b.endL - 1)
  let work0 :=
    if already then content
    else rebuildChunks b.startL content (b.nested.zip nr.1) 0
  coreCond b.md already work0

mutual

/-- Well-formedness of a block's line ranges against a buffer. -/
def WFb (buf : List Str) : Block → Bool
  | .mk s e _ nested =>
    decide (s ≤ e - 1) && decide (e - 1 ≤ buf.length) && WFbList buf nested

/-- Well-formedness of every block in a list. -/
def WFbList (buf : List Str) : List Block → Bool
  | [] => true
  | b :: bs => WFb buf b && WFbList buf bs

end

/-- A buffer holding one already-sorted block (the C2 witness input). -/
def bufC2 : List Str := [ ksStart, "a".toList, "b".toList, ksEnd ]

/-- The block discovered in `bufC2`. -/
def blkC2 : Block := .mk 1 4 ⟨ksStart, ksEnd, defaultOpts⟩ []

/-- A group whose final content line ends with exactly one comma. -/
def endsOneComma (g : LineGroup) : Bool :=
  g.hasSuf commaStr && !(g.hasSuf (commaStr ++ commaStr))

/-- Default block metadata for the C6 inputs. -/
def mdC6 : BlockMeta := ⟨ksStart, ksEnd, defaultOpts⟩

/-- C6 counterexample input: the non-last data line ends with `,,`. -/
def workC6 : List Str := [ "b,,".toList, "a".toList ]

/-- Second C6 counterexample input: a `,,` line that stays non-last. -/
def workC6b : List Str := [ "b,,".toList, "a,".toList, "c".toList ]

/-- C6 witness input: single trailing commas only. -/
def workC6w : List Str := [ "b,".toList, "a".toList ]

/-- The conditional case fold applied by `cutFirstPrefix` to both the
candidate string and each prefix. -/
def foldS (opts : BlockOpts) (u : Str) : Str :=
  if !opts.caseSensitive then toLowerS u else u

/-- C7 witness options: prefix order `bb`, `b`, `""`. -/
def optsC7 : BlockOpts :=
  { defaultOpts with prefixOrder := [ "bb".toList, "b".toList, [] ] }

/-- C7 witness content. -/
def sC7 : Str := "bbx".toList

/-- The index of the first occurrence of `q` in `l` (the loop index of
`newPrefixOrder`; with distinct configured prefixes it is the index of
the assignment that created the map entry). -/
def idxIn (l : List Str) (q : Str) : Nat :=
  match l with
  | [] => 0
  | x :: xs => if x = q then 0 else idxIn xs q + 1

/-- The loop body of `numericTokens.compare` at position `idx`: string
runs compare lexicographically at even positions, number runs by
magnitude at odd positions. -/
def cAt (t o : NumericTokens) (idx : Nat) : Int :=
  if idx % 2 = 0 then strCmp (t.s.getD (idx / 2) []) (o.s.getD (idx / 2) [])
  else Int.ofNat (t.i.getD (idx / 2) 0) - Int.ofNat (o.i.getD (idx / 2) 0)

/-- One step of the `maybeParseNumeric` accumulation loop. -/
def ntStep (t : NumericTokens) (run : Bool × Str) : NumericTokens :=
  if run.1 then
    let t := if t.len = 0 then { t with s := t.s ++ [[]] } else t
    { t with i := t.i ++ [natOfDigits run.2] }
  else
    { t with s := t.s ++ [run.2] }

/-- Adjacent runs have different digit/non-digit kinds. -/
def altKinds : List (Bool × Str) → Bool
  | [] => true
  | [_] => true
  | a :: b :: rest => (a.1 ≠ b.1) && altKinds (b :: rest)

/-- C8 witness options. -/
def optsC8 : BlockOpts := { defaultOpts with numeric := true }

theorem flatGroups_append (a b : List LineGroup) :
    flatGroups (a ++ b) = flatGroups a ++ flatGroups b := by
  simp [flatGroups]

theorem flatS_finish (st : GLState) : flatS (glFinish st) = flatS st := by
  simp [flatS, glFinish, flatGroups_append, flatGroups]

theorem flatS_maybeFinish (c : Prop) [Decidable c] (st : GLState) :
    flatS (if c then glFinish st else st) = flatS st := by
  split
  · exact flatS_finish st
  · rfl

theorem flatS_glAppend (md : BlockMeta) (i : Nat) (l : Str) (st : GLState) :
    flatS (glAppend md i l st) = flatS st ++ [l] := by
  simp [flatS, glAppend]

theorem flatS_glAppendNew (md : BlockMeta) (indents : List Int) (i : Nat)
    (l : Str) (st : GLState) :
    flatS (glAppendNew md indents i l st) = flatS st ++ [l] := by
  simp [flatS, glAppendNew]

theorem lAcc_maybeFinish (st : GLState) :
    (if st.lAcc ≠ [] then glFinish st else st).lAcc = [] := by
  split
  · rfl
  · simp_all [glFinish]

theorem flatS_glStep (md : BlockMeta) (indents : List Int) (i : Nat) (l : Str)
    (st : GLState) : flatS (glStep md indents i l st) = flatS st ++ [l] := by
  unfold glStep
  by_cases hl : st.lAcc = [] <;>
    repeat' split <;>
      try (simp_all [flatS, glAppend, glFinish, flatGroups_append, flatGroups,
        List.append_assoc])

theorem flatS_glStepNew (md : BlockMeta) (delims : Bool) (dm : Str → Bool)
    (indents : List Int) (i : Nat) (l : Str) (st : GLState) :
    flatS (glStepNew md delims dm indents i l st) = flatS st ++ [l] := by
  unfold glStepNew
  split
  · exact flatS_glAppendNew md indents i l st
  split
  · exact flatS_glAppendNew md indents i l st
  split
  · exact flatS_glAppendNew md indents i l st
  split
  · by_cases hl : st.lAcc = [] <;>
      simp_all [flatS, glFinish, flatGroups_append, flatGroups, List.append_assoc]
  split
  · rw [flatS_maybeFinish]
    exact flatS_glAppendNew md indents i l st
  · rw [flatS_glAppendNew, flatS_maybeFinish]

theorem flatS_glRun (md : BlockMeta) (indents : List Int) :
    ∀ (ls : List Str) (i : Nat) (st : GLState),
      flatS (glRun md indents i ls st) = flatS st ++ ls
  | [], _, _ => by simp [glRun]
  | l :: rest, i, st => by
    rw [glRun, flatS_glRun md indents rest (i + 1) (glStep md indents i l st),
      flatS_glStep]
    simp

theorem flatS_glRunNew (md : BlockMeta) (delims : Bool) (dm : Str → Bool)
    (indents : List Int) :
    ∀ (ls : List Str) (i : Nat) (st : GLState),
      flatS (glRunNew md delims dm indents i ls st) = flatS st ++ ls
  | [], _, _ => by simp [glRunNew]
  | l :: rest, i, st => by
    rw [glRunNew, flatS_glRunNew md delims dm indents rest (i + 1)
      (glStepNew md delims dm indents i l st), flatS_glStepNew]
    simp

/-- C3: for every list of content lines and every configuration, the
line groups produced by `groupLines` — in both the generation used by
`block.sorted` and the current generation with its delimiter-regex
predicate abstracted — concatenate (comment lines, then content lines,
group by group, in order) back to exactly the input lines: grouping
never drops, duplicates, or reorders a line. -/
theorem flatGroups_finalize (st : GLState) :
    flatGroups
        (if st.cAcc ≠ [] ∨ st.lAcc ≠ [] then (glFinish st).groups else st.groups) =
      flatS st := by
  by_cases h1 : st.cAcc = [] <;> by_cases h2 : st.lAcc = [] <;>
    simp_all [flatS, glFinish, flatGroups_append, flatGroups]

theorem claim_C3_grouping_is_partition (md : BlockMeta) (work : List Str)
    (delims : Bool) (dm : Str → Bool) :
    flatGroups (groupLines md work) = work ∧
      flatGroups (groupLinesNew md delims dm work) = work := by
  constructor
  · unfold groupLines
    rw [flatGroups_finalize, flatS_glRun]
    simp [flatS, flatGroups]
  · unfold groupLinesNew
    rw [flatGroups_finalize, flatS_glRunNew]
    simp [flatS, flatGroups]

/-! ## sorting permutation/membership lemmas -/

theorem perm_insertCmp (cmp : α → α → Int) (x : α) :
    ∀ l : List α, List.Perm (insertCmp cmp x l) (x :: l)
  | [] => by simp [insertCmp]
  | y :: ys => by
    rw [insertCmp]
    split
    · exact ((perm_insertCmp cmp x ys).cons y).trans (List.Perm.swap x y ys)
    · exact List.Perm.refl _

theorem perm_sortCmp (cmp : α → α → Int) :
    ∀ l : List α, List.Perm (sortCmp cmp l) l
  | [] => by simp [sortCmp]
  | x :: xs =>
    (perm_insertCmp cmp x (sortCmp cmp xs)).trans ((perm_sortCmp cmp xs).cons x)

theorem mem_sortCmp (cmp : α → α → Int) (l : List α) (y : α) :
    y ∈ sortCmp cmp l ↔ y ∈ l :=
  (perm_sortCmp cmp l).mem_iff

/-! ## C10 and C5: shapes of the emitted findings -/

theorem mem_warn_aux (st : NBState) (a b : Nat)
    (h : ∀ f ∈ st.warnFs, f.msg = Msg.optionWarn ∧ f.fixes = []) :
    ∀ f ∈ st.warnFs ++ mkWarnFindings a b,
      f.msg = Msg.optionWarn ∧ f.fixes = [] := by
  intro f hf
  rcases List.mem_append.mp hf with h1 | h2
  · exact h f h1
  · simp only [mkWarnFindings, List.mem_map] at h2
    rcases h2 with ⟨_, _, rfl⟩
    exact ⟨rfl, rfl⟩

theorem warnFs_nbStep (P : NBParams) (i : Nat) (l : Str) (st : NBState)
    (h : ∀ f ∈ st.warnFs, f.msg = Msg.optionWarn ∧ f.fixes = []) :
    ∀ f ∈ (nbStep P i l st).warnFs, f.msg = Msg.optionWarn ∧ f.fixes = [] := by
  simp only [nbStep]
  (repeat' split) <;>
    first
    | exact h
    | exact mem_warn_aux st _ _ h

theorem warnFs_nbRun (P : NBParams) :
    ∀ (ls : List Str) (i : Nat) (st : NBState),
      (∀ f ∈ st.warnFs, f.msg = Msg.optionWarn ∧ f.fixes = []) →
      ∀ f ∈ (nbRun P i ls st).warnFs, f.msg = Msg.optionWarn ∧ f.fixes = []
  | [], _, _, h => h
  | l :: rest, i, st, h =>
    warnFs_nbRun P rest (i + 1) (nbStep P i l st) (warnFs_nbStep P i l st h)

theorem warnFs_newBlocks (P : NBParams) :
    ∀ f ∈ (newBlocks P).2.2, f.msg = Msg.optionWarn ∧ f.fixes = [] := by
  intro f hf
  apply warnFs_nbRun P P.lines 0 {} (by intro f hf; simp at hf)
  unfold newBlocks nbFinalize at hf
  split at hf <;> simpa using hf

theorem blocksFold_shape (ending : Str) (auto : Bool) :
    ∀ (bs : List Block) (buf : List Str) (f : Finding),
      f ∈ (blocksFold ending auto bs buf).1 →
      f.msg = Msg.unordered ∧ ∃ s, f.fixes = [⟨[⟨f.lines, s⟩], auto⟩]
  | [], _, _, h => by simp [blocksFold] at h
  | b :: bs, buf, f, h => by
    rw [blocksFold] at h
    split at h
    · exact blocksFold_shape ending auto bs _ f h
    · rcases List.mem_cons.mp h with rfl | h2
      · exact ⟨rfl, _, rfl⟩
      · exact blocksFold_shape ending auto bs _ f h2

/-- C10: every Finding emitted for an unmatched directive spans exactly
the single directive line and carries exactly one Fix, which is not
automatic and whose sole Replacement substitutes that one-line range
with empty text. -/
theorem claim_C10_unmatched_directive_findings (P : NBParams) (ending : Str)
    (f : Finding) (hf : f ∈ (findingsRun P ending).1)
    (d : Dir) (hd : f.msg = Msg.missing d) :
    f.lines.2 = f.lines.1 ∧
      f.fixes = [⟨[⟨(f.lines.1, f.lines.1), []⟩], false⟩] := by
  unfold findingsRun at hf
  rw [mem_sortCmp] at hf
  rcases List.mem_append.mp hf with h1 | h2
  · rcases List.mem_append.mp h1 with ha | hb
    · exact absurd (warnFs_newBlocks P f ha).1 (by simp [hd])
    · rcases List.mem_map.mp hb with ⟨p, _, rfl⟩
      exact ⟨rfl, rfl⟩
  · exact absurd (blocksFold_shape ending _ _ _ f h2).1 (by simp [hd])

/-- Closed witness for C10 on a file consisting of a single dangling
end directive. -/
theorem claim_C10_witness :
    ∃ f, f ∈ (findingsRun p10 [ '\n' ]).1 ∧
      f.msg = Msg.missing Dir.endD ∧ f.lines.2 = f.lines.1 ∧
      f.fixes = [⟨[⟨(f.lines.1, f.lines.1), []⟩], false⟩] := by
  have h : (⟨(1, 1), Msg.missing Dir.endD, [⟨[⟨(1, 1), []⟩], false⟩]⟩ : Finding) ∈
      (findingsRun p10 [ '\n' ]).1 := by decide
  exact ⟨_, h, rfl,
    (claim_C10_unmatched_directive_findings p10 _ _ h Dir.endD rfl).1, rfl⟩

theorem noauto_fixGo (buf : List Str) (ending : Str) :
    ∀ (fs : List Finding) (k : Nat),
      (∀ f ∈ fs, f.fixes.find? (fun fx => fx.automatic) = none) →
      fixGo buf ending fs k = (joinWith ending (buf.drop (k - 1)), fs)
  | [], _, _ => rfl
  | f :: fs, k, h => by
    rw [fixGo, h f (by simp), noauto_fixGo buf ending fs k
      (fun g hg => h g (List.mem_cons_of_mem f hg))]

/-- C5 (amended): every Finding for an out-of-order region carries
exactly one Fix, whose `automatic` flag is set exactly when the file has
no unmatched directive; when unmatched directives exist, `Fixer.Fix`
applies no replacement and returns every finding as a warning (though
the emitted lines may still differ from the input because of the
trailing-comma buffer mutation, see C9). -/
theorem claim_C5_amended_fix_suppression (sd ed : Str)
    (pk : Str → BlockOpts × Nat) (contents : Str) :
    (∀ f ∈ (findingsRun ⟨sd, ed, pk, (linesAndEnding contents).1, 1,
          fun _ _ => true⟩ (linesAndEnding contents).2).1,
        f.msg = Msg.unordered →
        ∃ s, f.fixes = [⟨[⟨f.lines, s⟩],
          (newBlocks ⟨sd, ed, pk, (linesAndEnding contents).1, 1,
            fun _ _ => true⟩).2.1.isEmpty⟩]) ∧
      ((newBlocks ⟨sd, ed, pk, (linesAndEnding contents).1, 1,
          fun _ _ => true⟩).2.1 ≠ [] →
        (fixContents sd ed pk contents).2.2 =
          (findingsRun ⟨sd, ed, pk, (linesAndEnding contents).1, 1,
            fun _ _ => true⟩ (linesAndEnding contents).2).1) := by
  constructor
  · intro f hf hmsg
    unfold findingsRun at hf
    rw [mem_sortCmp] at hf
    rcases List.mem_append.mp hf with h1 | h2
    · rcases List.mem_append.mp h1 with ha | hb
      · exact absurd (warnFs_newBlocks _ f ha).1 (by simp [hmsg])
      · rcases List.mem_map.mp hb with ⟨p, _, rfl⟩
        simp at hmsg
    · exact (blocksFold_shape _ _ _ _ f h2).2
  · intro hinc
    have hall : ∀ f ∈ (findingsRun ⟨sd, ed, pk, (linesAndEnding contents).1, 1,
        fun _ _ => true⟩ (linesAndEnding contents).2).1,
        f.fixes.find? (fun fx => fx.automatic) = none := by
      intro f hf
      unfold findingsRun at hf
      rw [mem_sortCmp] at hf
      rcases List.mem_append.mp hf with h1 | h2
      · rcases List.mem_append.mp h1 with ha | hb
        · rw [(warnFs_newBlocks _ f ha).2]
          rfl
        · rcases List.mem_map.mp hb with ⟨p, _, rfl⟩
          rfl
      · rcases (blocksFold_shape _ _ _ _ f h2).2 with ⟨s, hs⟩
        have hie : (newBlocks ⟨sd, ed, pk, (linesAndEnding contents).1, 1,
            fun _ _ => true⟩).2.1.isEmpty = false := by
          rcases hx : (newBlocks ⟨sd, ed, pk, (linesAndEnding contents).1, 1,
            fun _ _ => true⟩).2.1 with _ | _
          · exact absurd hx hinc
          · rfl
        rw [hs, hie]
        rfl
    unfold fixContents
    rcases hx : (findingsRun ⟨sd, ed, pk, (linesAndEnding contents).1, 1,
        fun _ _ => true⟩ (linesAndEnding contents).2).1 with _ | ⟨f0, fs0⟩
    · simp [hx]
    · rw [hx] at hall
      simp only [hx, List.isEmpty_cons, Bool.false_eq_true, if_false]
      rw [noauto_fixGo _ _ _ _ hall]

/-! ## C4: unmatched-directive handling in block discovery -/

/-- C4: (i) an end directive seen while the stack of pending starts is
empty records an unmatched-directive entry for that line and the scan
simply continues on the rest of the input; (ii) at end of file, every
still-open start is recorded as an unmatched directive (start side), and
every region that closed but was classified as nested under a
never-closed start is appended to the top-level result list; (iii)
consequently no closed region pending in the nested lists is dropped. -/
theorem claim_C4_unmatched_directive_discovery (P : NBParams) :
    (∀ (i : Nat) (l : Str) (st : NBState) (rest : List Str),
      st.starts = [] → containsSub l P.startDir = false →
      containsSub l P.endDir = true →
      nbRun P i (l :: rest) st =
        nbRun P (i + 1) rest
          { st with incomplete := st.incomplete ++ [(i + P.offset, Dir.endD)] }) ∧
    (∀ st : NBState, st.starts ≠ [] →
      nbFinalize P st =
        (st.blocks ++ st.nested.flatten,
          st.incomplete ++ st.starts.map (fun p => (p.1 + P.offset, Dir.startD)),
          st.warnFs)) ∧
    (∀ (st : NBState) (bl : Block), st.starts ≠ [] →
      bl ∈ st.nested.flatten → bl ∈ (nbFinalize P st).1) := by
  refine ⟨?_, ?_, ?_⟩
  · intro i l st rest hempty hs he
    rw [nbRun]
    congr 1
    simp [nbStep, hs, he, hempty]
  · intro st hne
    simp [nbFinalize, hne]
  · intro st bl hne hmem
    simp only [nbFinalize, hne, if_pos, ne_eq, not_false_iff]
    exact List.mem_append.mpr (Or.inr hmem)

/-- Closed witness for C4 at a concrete scan: an end directive with an
empty stack, and an end-of-file state with an open start and a pending
nested block. -/
theorem claim_C4_witness :
    nbRun p10 5 [ "x end".toList ] {} =
      nbRun p10 6 [] { incomplete := [(6, Dir.endD)] } ∧
    (nbFinalize p10 { starts := [(0, [])], nested := [[Block.mk 2 3
        ⟨( "x start".toList ), ( "x end".toList ), defaultOpts⟩ []]] }).1 =
      [Block.mk 2 3 ⟨( "x start".toList ), ( "x end".toList ), defaultOpts⟩ []] := by
  constructor
  · exact (claim_C4_unmatched_directive_discovery p10).1 5 ( "x end".toList ) {} []
      rfl (by decide) (by decide)
  · rw [(claim_C4_unmatched_directive_discovery p10).2.1 _ (by decide)]
    rfl

/-! ## C1: idempotence of fixing (refuted on a concrete file) -/

/-- C1: applying `Fixer.Fix` to the output of a previous `Fixer.Fix`
(same id, default options, no modified-lines filter) does NOT always
return that output byte-identical: on `fileC1` the first fix yields
`z!`, `  z!!`, `z!a` and the second fix reorders it again to `z!a`,
`z!`, `  z!!`. -/
theorem claim_C1_fix_not_idempotent :
    (fixDefault fileC1).1 =
        ( "keep-sorted start\nz!\n  z!!\nz!a\nkeep-sorted end".toList ) ∧
      (fixDefault (fixDefault fileC1).1).1 =
        ( "keep-sorted start\nz!a\nz!\n  z!!\nkeep-sorted end".toList ) ∧
      (fixDefault (fixDefault fileC1).1).1 ≠ (fixDefault fileC1).1 := by
  refine ⟨by decide, by decide, by decide⟩

/-! ## C9: block.sorted mutates the shared buffer (refuted) -/

/-- C9 (evaluation at the failing input): `block.sorted` writes through
the shared backing array — the comma appended to `a` by
`handleTrailingComma` is stripped from `b,` (the group that ends up
last) rather than from `a`, so after the call the block's region of the
file buffer reads `b`, `a,` instead of the original `b,`, `a`, even
though the returned corrected lines are right. -/
theorem claim_C9_sorted_mutates_buffer :
    (sortedB buf9 blk9).1 = [ "a,".toList, "b".toList ] ∧
      (sortedB buf9 blk9).2.2 = [ ksStart, "b".toList, "a,".toList, ksEnd ] ∧
      (sortedB buf9 blk9).2.2 ≠ buf9 := by
  refine ⟨by decide, by decide, by decide⟩

/-! ## C5: the counterexample to "leaves those regions unchanged" -/

/-- C5, counterexample: `fileC5` contains an unmatched directive, no
finding carries an automatic fix, and `Fixer.Fix` applies no
replacement — yet its output differs from the input, because
`block.sorted` mutated the shared buffer (`b,`/`a` became `b`/`a,`).
So "Fixer.Fix leaves those regions unchanged" is false as stated. -/
theorem claim_C5_counterexample_region_changed :
    (newBlocks pC5).2.1 ≠ [] ∧
      (∀ f ∈ (fixDefault fileC5).2.2, ∀ fx ∈ f.fixes, fx.automatic = false) ∧
      (fixDefault fileC5).1 ≠ fileC5 ∧
      (fixDefault fileC5).1 =
        ( "keep-sorted end\nkeep-sorted start\nb\na,\nkeep-sorted end".toList ) := by
  refine ⟨by decide, by decide, by decide, by decide⟩

/-- Closed witness for the amended C5 on `fileC5`: with an unmatched
directive present, `Fixer.Fix` returns every finding as a warning. -/
theorem claim_C5_witness :
    (newBlocks pC5).2.1 ≠ [] ∧
      (fixContents ksStart ksEnd (fun _ => (defaultOpts, 0)) fileC5).2.2 =
        (findingsRun pC5 (linesAndEnding fileC5).2).1 :=
  ⟨by decide,
    (claim_C5_amended_fix_suppression ksStart ksEnd
      (fun _ => (defaultOpts, 0)) fileC5).2 (by decide)⟩

/-! ## C2: stability under no-op -/

theorem writeR_extract (buf : List Str) (a b : Nat) (h1 : a ≤ b)
    (h2 : b ≤ buf.length) : writeR buf a b (extractR buf a b) = buf := by
  unfold writeR extractR
  have htt : (buf.take b).take a = buf.take a := by
    rw [List.take_take]
    congr 1
    omega
  conv_rhs => rw [← List.take_append_drop b buf, ← List.take_append_drop a (buf.take b)]
  rw [htt, List.append_assoc]

theorem applyComma_false (g : List LineGroup) (w : List Str) :
    (applyComma g w).2.2 = false →
    (applyComma g w).1 = g ∧ (applyComma g w).2.1 = w := by
  unfold applyComma
  split
  · rcases hsp : List.span (fun g => g.lines.isEmpty) g.reverse with ⟨tail, rest⟩
    rw [hsp]
    rcases rest with _ | ⟨g0, pre⟩
    · intro _
      exact ⟨rfl, rfl⟩
    · intro h
      simp at h
  · intro _
    exact ⟨rfl, rfl⟩

theorem dedupGo_id (gs : List LineGroup) :
    ∀ seen : List Str, (dedupGo seen gs).2 = false → (dedupGo seen gs).1 = gs := by
  induction gs with
  | nil => intro seen _; rfl
  | cons g rest ih =>
    intro seen h
    by_cases hc : sigOf g ∈ seen
    · rw [dedupGo] at h
      simp [hc] at h
    · rw [dedupGo] at h ⊢
      simp only [hc, if_false, List.elem_eq_mem, decide_eq_true_eq, reduceCtorEq,
        Bool.false_eq_true, decide_eq_false_iff_not, not_false_iff, if_neg] at h ⊢
      rw [ih _ h]

theorem modifyAt_modifyAt (k : Nat) (f g : α → α) :
    ∀ l : List α, modifyAt (modifyAt l k f) k g = modifyAt l k (fun x => g (f x)) := by
  induction k with
  | zero => intro l; cases l <;> rfl
  | succ n ih => intro l; cases l <;> simp [modifyAt, ih]

theorem modifyAt_id (k : Nat) (f : α → α) (hf : ∀ x, f x = x) :
    ∀ l : List α, modifyAt l k f = l := by
  induction k with
  | zero => intro l; cases l <;> simp [modifyAt, hf]
  | succ n ih => intro l; cases l <;> simp [modifyAt, hf, ih]

theorem hasSuffixS_append (x s : Str) : hasSuffixS (x ++ s) s = true := by
  unfold hasSuffixS
  rw [List.isSuffixOf_iff_suffix]
  exact ⟨x, rfl⟩

theorem trimSuffixOnce_append (x s : Str) : trimSuffixOnce (x ++ s) s = x := by
  unfold trimSuffixOnce
  rw [if_pos (hasSuffixS_append x s)]
  simp

theorem bufTrim_bufAppend (w : List Str) (k : Option Nat) :
    bufTrimComma (bufAppendComma w k) k = w := by
  cases k with
  | none => rfl
  | some k =>
    simp only [bufAppendComma, bufTrimComma, modifyAt_modifyAt]
    exact modifyAt_id k _ (fun x => trimSuffixOnce_append x commaStr) w

theorem trimSpace_ne_nil (s : Str) (c : Char) (hc : c ∈ s)
    (hns : isSpaceGo c = false) : trimSpace s ≠ [] := by
  intro h
  unfold trimSpace at h
  have h2 : (s.dropWhile isSpaceGo).reverse.dropWhile isSpaceGo = [] := by
    simpa using h
  have h3 : s.dropWhile isSpaceGo ≠ [] := by
    intro hnil
    have := List.dropWhile_eq_nil_iff.mp hnil c hc
    simp [hns] at this
  have h4 := List.dropWhile_eq_nil_iff.mp h2
  rcases hx : s.dropWhile isSpaceGo with _ | ⟨x, xs⟩
  · exact h3 hx
  · have hxmem : x ∈ (s.dropWhile isSpaceGo).reverse := by simp [hx]
    have := h4 x hxmem
    have hxns : ¬ isSpaceGo x := by
      have hh := List.head?_dropWhile_not isSpaceGo s
      rw [hx] at hh
      simpa using hh
    simp_all

theorem getLastD_concat_my (xs : List α) (x d : α) :
    (xs ++ [x]).getLastD d = x := by
  induction xs with
  | nil => rfl
  | cons y ys ih =>
    rcases ys with _ | _ <;> simp_all [List.getLastD]

theorem hasSuf_appendStr (g : LineGroup) :
    hasSuffixS ((g.appendStr commaStr).lines.getLastD []) commaStr = true := by
  unfold LineGroup.appendStr
  simp only [getLastD_concat_my]
  exact hasSuffixS_append _ _

theorem isNewlineG_appendStr (g : LineGroup) :
    isNewlineG (g.appendStr commaStr) = false := by
  unfold isNewlineG LineGroup.appendStr
  simp only [decide_eq_false_iff_not]
  rintro ⟨-, hlen, hts⟩
  have hd : g.lines.dropLast = [] := by
    simp only [List.length_append, List.length_cons, List.length_nil] at hlen
    exact List.length_eq_zero.mp (by omega)
  rw [hd] at hts
  simp only [List.nil_append, List.getD_cons_zero] at hts
  exact trimSpace_ne_nil _ ',' (by simp [commaStr]) (by decide) hts

theorem takeWhile_append_all (p : α → Bool) (T X : List α)
    (hT : ∀ x ∈ T, p x = true) : (T ++ X).takeWhile p = T ++ X.takeWhile p := by
  induction T with
  | nil => simp
  | cons t ts ih =>
    simp only [List.cons_append, List.takeWhile_cons, hT t (by simp), if_true]
    rw [ih (fun x hx => hT x (by simp [hx]))]

theorem dropWhile_append_all (p : α → Bool) (T X : List α)
    (hT : ∀ x ∈ T, p x = true) : (T ++ X).dropWhile p = X.dropWhile p := by
  induction T with
  | nil => simp
  | cons t ts ih =>
    simp only [List.cons_append, List.dropWhile_cons, hT t (by simp), if_true]
    exact ih (fun x hx => hT x (by simp [hx]))

theorem span_all_empty_cons (T : List LineGroup) (g : LineGroup)
    (X : List LineGroup) (hT : ∀ x ∈ T, x.lines.isEmpty = true)
    (hg : g.lines.isEmpty = false) :
    (T ++ g :: X).span (fun x => x.lines.isEmpty) = (T, g :: X) := by
  rw [List.span_eq_take_drop, takeWhile_append_all _ _ _ hT,
    dropWhile_append_all _ _ _ hT]
  simp [List.takeWhile_cons, List.dropWhile_cons, hg]

theorem lines_appendStr_ne (g : LineGroup) :
    (g.appendStr commaStr).lines.isEmpty = false := by
  simp [LineGroup.appendStr]

theorem lastIdx_appendStr (g : LineGroup) :
    (g.appendStr commaStr).lastIdx = g.lastIdx := rfl

theorem isNewlineG_of_empty (x : LineGroup) (hx : x.lines.isEmpty = true) :
    isNewlineG x = false := by
  unfold isNewlineG
  rw [List.isEmpty_iff] at hx
  simp [hx]

/-- The shape of `applyComma` when it fires: the groups split as
`pre.reverse ++ [g₀ + ","] ++ tail.reverse` with every group in `tail`
content-free and `g₀` carrying content, and the buffer gets the comma at
`g₀`'s recorded line. -/
theorem applyComma_true (g : List LineGroup) (w : List Str)
    (h : (applyComma g w).2.2 = true) :
    ∃ tail g0 pre, List.span (fun x => x.lines.isEmpty) g.reverse = (tail, g0 :: pre) ∧
      (∀ x ∈ tail, x.lines.isEmpty = true) ∧ g0.lines.isEmpty = false ∧
      (applyComma g w).1 = pre.reverse ++ [g0.appendStr commaStr] ++ tail.reverse ∧
      (applyComma g w).2.1 = bufAppendComma w g0.lastIdx := by
  unfold applyComma at *
  by_cases hcc : commaCondition g = true
  · rw [if_pos hcc] at h ⊢
    rcases hsp : List.span (fun x => x.lines.isEmpty) g.reverse with ⟨tail, rest⟩
    rw [hsp] at h ⊢
    rcases rest with _ | ⟨g0, pre⟩
    · simp at h
    · rw [List.span_eq_take_drop, Prod.mk.injEq] at hsp
      refine ⟨tail, g0, pre, rfl, ?_, ?_, rfl, rfl⟩
      · intro x hx
        rw [← hsp.1] at hx
        have hpx := List.mem_takeWhile_imp hx
        simpa using hpx
      · have hh := List.head?_dropWhile_not (fun x : LineGroup => x.lines.isEmpty)
          g.reverse
        rw [hsp.2] at hh
        simpa using hh
  · rw [if_neg hcc] at h
    simp at h

theorem sortedCore_flag (md : BlockMeta) (already : Bool) (work : List Str) :
    (sortedCore md already work).2.1 = coreCond md already work := by
  unfold sortedCore coreCond
  dsimp only
  split
  next h =>
    obtain ⟨h1, h2, h3, h4⟩ := h
    rw [h1, h2, h3, h4]
    rfl
  next h =>
    symm
    rw [Bool.eq_false_iff]
    intro hcon
    apply h
    simp only [Bool.and_eq_true] at hcon
    exact ⟨hcon.1.1.1, hcon.1.1.2, hcon.1.2, hcon.2⟩

theorem dupStage_id (md : BlockMeta) (x : List LineGroup)
    (h : (dupStage md x).2 = false) : (dupStage md x).1 = x := by
  unfold dupStage dedupGroups at *
  by_cases hrd : md.opts.removeDuplicates = true
  · rw [if_pos hrd] at h ⊢
    exact dedupGo_id x [] h
  · rw [if_neg hrd] at h ⊢

/-- With the already-sorted condition satisfied, the core returns the
working lines unchanged (the appended comma is trimmed from exactly the
line it was appended to) along with the `true` flag. -/
theorem sortedCore_restore (md : BlockMeta) (work : List Str)
    (h : coreCond md true work = true) :
    (sortedCore md true work).1 = work ∧ (sortedCore md true work).2.1 = true ∧
      (sortedCore md true work).2.2.1 = work := by
  have hcond := h
  unfold coreCond at hcond
  simp only [Bool.and_eq_true, Bool.not_eq_eq_eq_not, Bool.not_true] at hcond
  obtain ⟨⟨⟨-, hns⟩, hdup⟩, hsort⟩ := hcond
  have hw2 :
      (trimStage (applyComma (groupLines md work) work).2.2
          (dupStage md (nsStage md (applyComma (groupLines md work) work).1).2).1
          (applyComma (groupLines md work) work).2.1).2 = work := by
    rcases hcf : (applyComma (groupLines md work) work).2.2 with _ | _
    · rw [trimStage, if_neg (by simp [hcf])]
      exact (applyComma_false _ _ hcf).2
    · rcases applyComma_true _ _ hcf with ⟨tail, g0, pre, hsp, htail, hg0, hg1, hw1⟩
      rw [trimStage, if_pos (by simp [hcf])]
      have hd1 := dupStage_id md _ hdup
      have hns2 : (nsStage md (applyComma (groupLines md work) work).1).2 =
          (nsStage md (applyComma (groupLines md work) work).1).2 := rfl
      -- shape of the groups reaching the trim
      have hshape : ∃ A : List LineGroup,
          (dupStage md (nsStage md (applyComma (groupLines md work) work).1).2).1 =
            A ++ [g0.appendStr commaStr] ++ tail.reverse := by
        rw [hd1]
        unfold nsStage
        split
        · refine ⟨(pre.reverse.filter (fun g => !isNewlineG g)), ?_⟩
          rw [hg1, List.filter_append, List.filter_append]
          have e1 : List.filter (fun g => !isNewlineG g) [g0.appendStr commaStr] =
              [g0.appendStr commaStr] := by
            simp [List.filter, isNewlineG_appendStr]
          have e2 : List.filter (fun g => !isNewlineG g) tail.reverse =
              tail.reverse := by
            rw [List.filter_eq_self]
            intro a ha
            simp [isNewlineG_of_empty a (htail a (by simpa using ha))]
          rw [e1, e2]
        · exact ⟨pre.reverse, hg1⟩
      rcases hshape with ⟨A, hA⟩
      rw [hA]
      unfold trimLastData
      have hrev : (A ++ [g0.appendStr commaStr] ++ tail.reverse).reverse =
          tail ++ (g0.appendStr commaStr) :: A.reverse := by
        simp
      rw [hrev, span_all_empty_cons tail _ _ htail (lines_appendStr_ne g0)]
      simp only
      rw [hw1, lastIdx_appendStr]
      exact bufTrim_bufAppend work g0.lastIdx
  refine ⟨?_, ?_, ?_⟩ <;>
    · unfold sortedCore
      rw [if_pos ⟨rfl, hns, by rw [hdup]; rfl, hsort⟩]
      try exact hw2

mutual

theorem sortedB_restore (buf : List Str) (b : Block) (hwf : WFb buf b = true)
    (h : (sortedB buf b).2.1 = true) :
    sortedB buf b = (contentOf buf b, true, buf) := by
  cases b with
  | mk s e md nested =>
    simp only [WFb, Bool.and_eq_true, decide_eq_true_eq] at hwf
    obtain ⟨⟨hse, hel⟩, hwfn⟩ := hwf
    simp only [sortedB] at h ⊢
    rw [sortedCore_flag] at h
    have ha : ((sortedList buf nested).1.all (fun r => r.2)) = true := by
      have hc := h
      unfold coreCond at hc
      simp only [Bool.and_eq_true] at hc
      exact hc.1.1.1
    have hbuf : (sortedList buf nested).2 = buf :=
      sortedList_restore buf nested hwfn ha
    rw [ha, if_pos rfl, hbuf] at h
    rw [ha]
    simp only [if_pos rfl, if_pos trivial, hbuf]
    obtain ⟨h1, h2, h3⟩ := sortedCore_restore md (extractR buf s (e - 1)) h
    rw [h1, h2, h3]
    rw [writeR_extract buf s (e - 1) hse hel]
    rfl

theorem sortedList_restore (buf : List Str) (bs : List Block)
    (hwf : WFbList buf bs = true)
    (h : ((sortedList buf bs).1.all (fun r => r.2)) = true) :
    (sortedList buf bs).2 = buf := by
  cases bs with
  | nil => rfl
  | cons b rest =>
    simp only [WFbList, Bool.and_eq_true] at hwf
    simp only [sortedList, List.all_cons, Bool.and_eq_true] at h
    have hb := sortedB_restore buf b hwf.1 h.1
    have h2 := h.2
    rw [hb] at h2
    simp only [sortedList, hb]
    exact sortedList_restore buf rest hwf.2 h2

end

theorem sortedB_flag (buf : List Str) (b : Block) :
    (sortedB buf b).2.1 = alreadyCond buf b := by
  cases b with
  | mk s e md nested =>
    simp only [sortedB, alreadyCond, Block.md, Block.nested, Block.startL,
      Block.endL]
    exact sortedCore_flag _ _ _

/-- C2: the already-sorted flag returned by `block.sorted` equals the
stated condition — every nested block reported already sorted, the
newline-separation pattern already held, no duplicate group was
removed, and the (comma-normalized) groups are non-decreasing under the
full comparator — and whenever that condition holds, `sorted` returns
exactly the original line slice with the shared buffer untouched, and
the block contributes no Finding to the per-block findings fold. -/
theorem claim_C2_already_sorted_stability (buf : List Str) (b : Block)
    (hwf : WFb buf b = true) (ending : Str) (auto : Bool) (bs : List Block) :
    (sortedB buf b).2.1 = alreadyCond buf b ∧
      (alreadyCond buf b = true →
        sortedB buf b = (contentOf buf b, true, buf) ∧
          blocksFold ending auto (b :: bs) buf = blocksFold ending auto bs buf) ∧
      (alreadyCond buf b = false →
        (blocksFold ending auto (b :: bs) buf).1 =
          ⟨(b.startL + 1, b.endL - 1), .unordered,
              [⟨[⟨(b.startL + 1, b.endL - 1),
                  linesToString (sortedB buf b).1 ending⟩], auto⟩]⟩ ::
            (blocksFold ending auto bs (sortedB buf b).2.2).1) := by
  have hflag := sortedB_flag buf b
  refine ⟨hflag, fun ha => ?_, fun ha => ?_⟩
  · have hb := sortedB_restore buf b hwf (by rw [hflag, ha])
    refine ⟨hb, ?_⟩
    simp only [blocksFold, hb, if_pos trivial]
  · have hbf : (sortedB buf b).2.1 = false := by rw [hflag, ha]
    simp only [blocksFold, hbf, Bool.false_eq_true, if_false]

/-- Closed witness for C2 on `bufC2` (content `a`, `b`, already
sorted): the block is well-formed and the statement evaluates. -/
theorem claim_C2_witness :
    WFb bufC2 blkC2 = true ∧
      ((sortedB bufC2 blkC2).2.1 = alreadyCond bufC2 blkC2 ∧
        (alreadyCond bufC2 blkC2 = true →
          sortedB bufC2 blkC2 = (contentOf bufC2 blkC2, true, bufC2) ∧
            blocksFold [ '\n' ] true (blkC2 :: []) bufC2 =
              blocksFold [ '\n' ] true [] bufC2) ∧
        (alreadyCond bufC2 blkC2 = false →
          (blocksFold [ '\n' ] true (blkC2 :: []) bufC2).1 =
            ⟨(blkC2.startL + 1, blkC2.endL - 1), .unordered,
                [⟨[⟨(blkC2.startL + 1, blkC2.endL - 1),
                    linesToString (sortedB bufC2 blkC2).1 [ '\n' ]⟩], true⟩]⟩ ::
              (blocksFold [ '\n' ] true [] (sortedB bufC2 blkC2).2.2).1)) :=
  ⟨by decide,
    claim_C2_already_sorted_stability bufC2 blkC2 (by decide) [ '\n' ] true []⟩

theorem dropWhile_head_false (p : α → Bool) :
    ∀ (l : List α) (c : α) (r : List α), l.dropWhile p = c :: r → p c = false := by
  intro l
  induction l with
  | nil => intro c r h; simp at h
  | cons x xs ih =>
    intro c r h
    rw [List.dropWhile_cons] at h
    by_cases hp : p x = true
    · rw [if_pos hp] at h
      exact ih c r h
    · rw [if_neg hp] at h
      cases h
      simpa using hp

theorem span_shape (p : α → Bool) (L tl pr : List α) (g : α)
    (h : L.reverse.span p = (tl, g :: pr)) :
    L = pr.reverse ++ [g] ++ tl.reverse ∧ (∀ x ∈ tl, p x = true) ∧
      p g = false := by
  rw [List.span_eq_take_drop] at h
  have h1 : L.reverse.takeWhile p = tl := congrArg Prod.fst h
  have h2 : L.reverse.dropWhile p = g :: pr := congrArg Prod.snd h
  refine ⟨?_, ?_, dropWhile_head_false p _ _ _ h2⟩
  · have h3 : L.reverse.takeWhile p ++ L.reverse.dropWhile p = L.reverse :=
      List.takeWhile_append_dropWhile p L.reverse
    rw [h1, h2] at h3
    have h4 : L = (tl ++ g :: pr).reverse := by rw [h3, List.reverse_reverse]
    rw [h4]
    simp
  · intro x hx
    rw [← h1] at hx
    exact List.mem_takeWhile_imp hx

theorem mem_dedupGo (y : LineGroup) :
    ∀ (gs : List LineGroup) (seen : List Str),
      y ∈ (dedupGo seen gs).1 → y ∈ gs := by
  intro gs
  induction gs with
  | nil => intro seen h; simp [dedupGo] at h
  | cons g rest ih =>
    intro seen h
    rw [dedupGo] at h
    by_cases hc : seen.contains (sigOf g) = true
    · rw [if_pos hc] at h
      exact List.mem_cons_of_mem _ (ih _ h)
    · rw [if_neg hc] at h
      rcases List.mem_cons.mp h with h | h
      · exact h ▸ List.mem_cons_self _ _
      · exact List.mem_cons_of_mem _ (ih _ h)

theorem hasSuffixS_append_cancel (x t s : Str) :
    hasSuffixS (x ++ s) (t ++ s) = hasSuffixS x t := by
  rw [Bool.eq_iff_iff]
  unfold hasSuffixS
  rw [List.isSuffixOf_iff_suffix, List.isSuffixOf_iff_suffix]
  constructor
  · rintro ⟨u, hu⟩
    rw [← List.append_assoc] at hu
    exact ⟨u, List.append_cancel_right hu⟩
  · rintro ⟨u, hu⟩
    exact ⟨u, by rw [← List.append_assoc, hu]⟩

theorem exists_of_hasSuffixS (l s : Str) (h : hasSuffixS l s = true) :
    ∃ x, l = x ++ s := by
  unfold hasSuffixS at h
  rw [List.isSuffixOf_iff_suffix] at h
  rcases h with ⟨x, hx⟩
  exact ⟨x, hx.symm⟩

theorem trimLeftSpace_comma_ne (l : Str) (h : hasSuffixS l commaStr = true) :
    trimLeftSpace l ≠ [] := by
  rcases exists_of_hasSuffixS l commaStr h with ⟨x, rfl⟩
  intro hnil
  unfold trimLeftSpace at hnil
  rw [List.dropWhile_eq_nil_iff] at hnil
  exact absurd (hnil ',' (by simp [commaStr])) (by decide)

theorem joinGo_concat (l : Str) :
    ∀ (ls : List Str) (last : Str),
      ∃ p, joinGo last (ls ++ [l]) = p ++ trimLeftSpace l := by
  intro ls
  induction ls with
  | nil =>
    intro last
    refine ⟨(if last ≠ [] ∧ trimLeftSpace l ≠ [] ∧ endsWord last ∧
        startsWord (trimLeftSpace l) then ([ ' ' ] : Str) else []), ?_⟩
    simp [joinGo]
  | cons x xs ih =>
    intro last
    rcases ih (trimLeftSpace x) with ⟨p, hp⟩
    refine ⟨(if last ≠ [] ∧ trimLeftSpace x ≠ [] ∧ endsWord last ∧
        startsWord (trimLeftSpace x) then ([ ' ' ] : Str) else []) ++
        trimLeftSpace x ++ p, ?_⟩
    simp only [List.cons_append, joinGo, List.append_eq, hp, List.append_assoc]

theorem joinGo_nil_head :
    ∀ lines : List Str, joinGo [] lines = [] ∨
      ∃ c r, joinGo [] lines = c :: r ∧ isSpaceGo c = false := by
  intro lines
  induction lines with
  | nil => exact Or.inl rfl
  | cons l ls ih =>
    rcases ht : trimLeftSpace l with _ | ⟨c, r⟩
    · have he : joinGo [] (l :: ls) = joinGo [] ls := by
        simp [joinGo, ht]
      rw [he]
      exact ih
    · right
      refine ⟨c, r ++ joinGo (c :: r) ls, ?_,
        dropWhile_head_false isSpaceGo l c r ht⟩
      simp [joinGo, ht]

theorem self_eq_dropLast_concat (d : α) :
    ∀ l : List α, l ≠ [] → l = l.dropLast ++ [l.getLastD d] := by
  intro l
  induction l with
  | nil => simp
  | cons x xs ih =>
    intro _
    cases xs with
    | nil => rfl
    | cons y ys =>
      have h2 := ih (by simp)
      calc x :: y :: ys
          = x :: ((y :: ys).dropLast ++ [(y :: ys).getLastD d]) := by
            rw [← h2]
        _ = (x :: y :: ys).dropLast ++ [(x :: y :: ys).getLastD d] := by
            simp [List.getLastD]

theorem sig_head_of_comma (g : LineGroup) (hd : g.lines.isEmpty = false)
    (hc : g.hasSuf commaStr = true) :
    ∃ c r, sigOf g = c :: r ∧ isSpaceGo c = false := by
  have hlines : g.lines ≠ [] := by simpa using hd
  have hsuf : hasSuffixS (g.lines.getLastD []) commaStr = true := by
    unfold LineGroup.hasSuf at hc
    simp only [decide_eq_true_eq] at hc
    exact hc.2
  have hdec := self_eq_dropLast_concat [] g.lines hlines
  rcases joinGo_concat (g.lines.getLastD []) g.lines.dropLast [] with ⟨p, hp⟩
  have hjoin : g.joined = p ++ trimLeftSpace (g.lines.getLastD []) := by
    unfold LineGroup.joined joinedLinesOf
    conv_lhs => rw [hdec]
    exact hp
  have hne : g.joined ≠ [] := by
    rw [hjoin]
    intro hcon
    exact trimLeftSpace_comma_ne _ hsuf (List.append_eq_nil.mp hcon).2
  rcases joinGo_nil_head g.lines with h0 | ⟨c, r, hcr, hcs⟩
  · exact absurd h0 hne
  · refine ⟨c, r ++ [ '\n' ] ++ g.joinedComment, ?_, hcs⟩
    unfold sigOf
    have : g.joined = c :: r := hcr
    rw [this]
    simp

theorem sig_comment_only (g : LineGroup) (hd : g.lines.isEmpty = true) :
    sigOf g = '\n' :: g.joinedComment := by
  rw [List.isEmpty_iff] at hd
  unfold sigOf LineGroup.joined joinedLinesOf
  rw [hd]
  rfl

theorem dedup_data_survives :
    ∀ (gs : List LineGroup) (seen : List Str),
      (∀ g ∈ gs, g.lines.isEmpty = false → g.hasSuf commaStr = true) →
      (∀ s ∈ seen, s.head? = some '\n') →
      (∃ g ∈ gs, g.lines.isEmpty = false) →
      ∃ g ∈ (dedupGo seen gs).1, g.lines.isEmpty = false := by
  intro gs
  induction gs with
  | nil =>
    intro seen _ _ hex
    simp at hex
  | cons g rest ih =>
    intro seen hcomma hseen hex
    rcases hgd : g.lines.isEmpty with _ | _
    · rcases sig_head_of_comma g hgd (hcomma g (List.mem_cons_self g rest) hgd)
        with ⟨c, r, hcr, hcs⟩
      have hnot : ¬ (seen.contains (sigOf g) = true) := by
        intro hcon
        have hmem : sigOf g ∈ seen := by simpa using hcon
        have hh := hseen _ hmem
        rw [hcr] at hh
        simp only [List.head?_cons, Option.some.injEq] at hh
        rw [hh] at hcs
        exact absurd hcs (by decide)
      rw [dedupGo, if_neg hnot]
      exact ⟨g, List.mem_cons_self _ _, hgd⟩
    · have hex' : ∃ g' ∈ rest, g'.lines.isEmpty = false := by
        rcases hex with ⟨g', hg', hgd'⟩
        rcases List.mem_cons.mp hg' with rfl | hmem
        · rw [hgd] at hgd'
          cases hgd'
        · exact ⟨g', hmem, hgd'⟩
      rw [dedupGo]
      by_cases hc : seen.contains (sigOf g) = true
      · rw [if_pos hc]
        exact ih seen (fun g' h' => hcomma g' (List.mem_cons_of_mem _ h'))
          hseen hex'
      · rw [if_neg hc]
        have hseen' : ∀ s ∈ seen ++ [sigOf g], s.head? = some '\n' := by
          intro s hs
          rcases List.mem_append.mp hs with hs | hs
          · exact hseen s hs
          · rw [List.mem_singleton] at hs
            rw [hs, sig_comment_only g hgd]
            rfl
        rcases ih (seen ++ [sigOf g])
            (fun g' h' => hcomma g' (List.mem_cons_of_mem _ h')) hseen' hex'
          with ⟨g', hg', hgd'⟩
        exact ⟨g', List.mem_cons_of_mem _ hg', hgd'⟩

theorem lines_trimSuf_ne (g : LineGroup) :
    (g.trimSuf commaStr).lines.isEmpty = false := by
  simp [LineGroup.trimSuf]

theorem hasSuf_trimSuf_false (g : LineGroup) (h : endsOneComma g = true) :
    (g.trimSuf commaStr).hasSuf commaStr = false := by
  unfold endsOneComma at h
  simp only [Bool.and_eq_true, Bool.not_eq_true'] at h
  obtain ⟨h1, h2⟩ := h
  have hL : hasSuffixS (g.lines.getLastD []) commaStr = true := by
    unfold LineGroup.hasSuf at h1
    simp only [decide_eq_true_eq] at h1
    exact h1.2
  rcases exists_of_hasSuffixS _ _ hL with ⟨L2, hL2⟩
  have hlines : g.lines ≠ [] := by
    unfold LineGroup.hasSuf at h1
    simp only [decide_eq_true_eq] at h1
    exact h1.1
  have hnot : hasSuffixS L2 commaStr = false := by
    unfold LineGroup.hasSuf at h2
    simp only [decide_eq_false_iff_not] at h2
    have hns : ¬ hasSuffixS (g.lines.getLastD []) (commaStr ++ commaStr) = true :=
      fun hc => h2 ⟨hlines, hc⟩
    rw [hL2, hasSuffixS_append_cancel L2 commaStr commaStr] at hns
    exact Bool.eq_false_iff.mpr hns
  unfold LineGroup.trimSuf LineGroup.hasSuf
  simp only [decide_eq_false_iff_not]
  rintro ⟨-, hsuf⟩
  rw [getLastD_concat_my, hL2, trimSuffixOnce_append] at hsuf
  rw [hnot] at hsuf
  cases hsuf

theorem trimLast_spec (L : List LineGroup) (w : List Str)
    (hP : ∀ g ∈ L, g.lines.isEmpty = false → endsOneComma g = true)
    (hD : ∃ g ∈ L, g.lines.isEmpty = false) :
    ((trimLastData L w).1.filter (fun g => !g.lines.isEmpty)) ≠ [] ∧
      (∀ g ∈ ((trimLastData L w).1.filter (fun g => !g.lines.isEmpty)).dropLast,
        endsOneComma g = true) ∧
      (((trimLastData L w).1.filter
          (fun g => !g.lines.isEmpty)).getLastD {}).hasSuf commaStr = false := by
  unfold trimLastData
  rcases hsp : List.span (fun g => g.lines.isEmpty) L.reverse with ⟨tl, rest⟩
  rw [hsp]
  rcases rest with _ | ⟨g, pr⟩
  · exfalso
    rw [List.span_eq_take_drop] at hsp
    have h2 : L.reverse.dropWhile (fun g => g.lines.isEmpty) = [] :=
      congrArg Prod.snd hsp
    rw [List.dropWhile_eq_nil_iff] at h2
    rcases hD with ⟨gd, hgd, hne⟩
    have hh := h2 gd (by simpa using hgd)
    rw [hne] at hh
    cases hh
  · obtain ⟨hLeq, htl, hg⟩ := span_shape _ L tl pr g hsp
    have hgdata : g.lines.isEmpty = false := hg
    have hgmem : g ∈ L := by
      rw [hLeq]
      simp
    have hfil : (pr.reverse ++ [g.trimSuf commaStr] ++ tl.reverse).filter
        (fun x => !x.lines.isEmpty) =
        (pr.reverse.filter (fun x => !x.lines.isEmpty)) ++ [g.trimSuf commaStr] := by
      rw [List.filter_append, List.filter_append]
      have e1 : List.filter (fun x => !x.lines.isEmpty) [g.trimSuf commaStr] =
          [g.trimSuf commaStr] := by
        simp [List.filter, lines_trimSuf_ne]
      have e2 : tl.reverse.filter (fun x => !x.lines.isEmpty) = [] := by
        rw [List.filter_eq_nil]
        intro a ha
        have ham : a ∈ tl := by simpa using ha
        simp [htl a ham]
      rw [e1, e2, List.append_nil]
    dsimp only
    rw [hfil]
    refine ⟨by simp, ?_, ?_⟩
    · intro x hx
      rw [List.dropLast_concat] at hx
      have hxm := List.mem_filter.mp hx
      have hxL : x ∈ L := by
        rw [hLeq]
        exact List.mem_append_left _ (List.mem_append_left _ hxm.1)
      exact hP x hxL (by simpa using hxm.2)
    · rw [getLastD_concat_my]
      exact hasSuf_trimSuf_false g (hP g hgmem hgdata)

theorem applyComma_fires (gs : List LineGroup) (w : List Str)
    (h1 : commaCondition gs = true) : (applyComma gs w).2.2 = true := by
  unfold applyComma
  rw [if_pos h1]
  rcases hsp : List.span (fun g => g.lines.isEmpty) gs.reverse with ⟨tl, rest⟩
  rw [hsp]
  rcases rest with _ | ⟨g, pr⟩
  · exfalso
    rw [List.span_eq_take_drop] at hsp
    have h2 := congrArg Prod.snd hsp
    rw [List.dropWhile_eq_nil_iff] at h2
    unfold commaCondition at h1
    simp only [decide_eq_true_eq] at h1
    obtain ⟨hlen, -, -⟩ := h1
    have hne : (gs.filter (fun g => !g.lines.isEmpty)) ≠ [] := by
      intro hc
      rw [hc] at hlen
      simp at hlen
    rcases List.exists_mem_of_ne_nil _ hne with ⟨x, hx⟩
    have hxm := List.mem_filter.mp hx
    have hxe := h2 x (by simpa using hxm.1)
    simp only at hxe
    have hfalse : x.lines.isEmpty = false := by simpa using hxm.2
    rw [hfalse] at hxe
    cases hxe
  · rfl

theorem mem_nsStage (md : BlockMeta) (G : List LineGroup) (x : LineGroup)
    (hx : x ∈ (nsStage md G).2) : x ∈ G := by
  unfold nsStage at hx
  split at hx
  · exact (List.mem_filter.mp hx).1
  · exact hx

theorem mem_dupStage (md : BlockMeta) (G : List LineGroup) (x : LineGroup)
    (hx : x ∈ (dupStage md G).1) : x ∈ G := by
  unfold dupStage at hx
  split at hx
  · exact mem_dedupGo x G [] hx
  · exact hx

/-- C6 (corrected): with more than one data group, every non-last data
group ending in a comma and the last not, the comma is appended before
comparison (the trim closure is armed); and PROVIDED each non-last data
group ends with exactly one comma (no `,,`), the final group list has a
non-empty data part whose last group carries no trailing comma while
every other data group ends with exactly one. Without the single-comma
proviso the law fails (see the counterexample). -/
theorem claim_C6_corrected_trailing_comma (md : BlockMeta) (already : Bool)
    (work : List Str)
    (h1 : commaCondition (groupLines md work) = true)
    (h2 : ∀ g ∈ ((groupLines md work).filter
        (fun g => !g.lines.isEmpty)).dropLast,
      g.hasSuf (commaStr ++ commaStr) = false) :
    (applyComma (groupLines md work) work).2.2 = true ∧
      ((sortedCore md already work).2.2.2.filter
        (fun g => !g.lines.isEmpty)) ≠ [] ∧
      (∀ g ∈ ((sortedCore md already work).2.2.2.filter
          (fun g => !g.lines.isEmpty)).dropLast, endsOneComma g = true) ∧
      (((sortedCore md already work).2.2.2.filter
          (fun g => !g.lines.isEmpty)).getLastD {}).hasSuf commaStr = false := by
  have hfire := applyComma_fires _ work h1
  obtain ⟨tail, g0, pre, hsp, htail, hg0, hgr, hbuf⟩ := applyComma_true _ _ hfire
  have h1' := h1
  unfold commaCondition at h1'
  simp only [decide_eq_true_eq] at h1'
  obtain ⟨hlen, hall, hlast⟩ := h1'
  obtain ⟨hGeq, htl2, hg2⟩ := span_shape _ (groupLines md work) tail pre g0 hsp
  have hds : (groupLines md work).filter (fun g => !g.lines.isEmpty) =
      (pre.reverse.filter (fun g => !g.lines.isEmpty)) ++ [g0] := by
    conv_lhs => rw [hGeq]
    rw [List.filter_append, List.filter_append]
    have e1 : List.filter (fun g => !g.lines.isEmpty) [g0] = [g0] := by
      simp [List.filter, hg0]
    have e2 : tail.reverse.filter (fun g => !g.lines.isEmpty) = [] := by
      rw [List.filter_eq_nil]
      intro a ha
      simp [htail a (by simpa using ha)]
    rw [e1, e2, List.append_nil]
  have hP1 : ∀ g ∈ (applyComma (groupLines md work) work).1,
      g.lines.isEmpty = false → endsOneComma g = true := by
    rw [hgr]
    intro x hx hxdata
    rcases List.mem_append.mp hx with hx | hx
    · rcases List.mem_append.mp hx with hx | hx
      · have hxds : x ∈ ((groupLines md work).filter
            (fun g => !g.lines.isEmpty)).dropLast := by
          rw [hds, List.dropLast_concat]
          exact List.mem_filter.mpr ⟨hx, by simp [hxdata]⟩
        have hcom : x.hasSuf commaStr = true :=
          List.all_eq_true.mp hall x hxds
        unfold endsOneComma
        rw [hcom, h2 x hxds]
        rfl
      · rw [List.mem_singleton] at hx
        subst hx
        unfold endsOneComma
        have ha : (g0.appendStr commaStr).hasSuf commaStr = true := by
          unfold LineGroup.hasSuf
          simp only [decide_eq_true_eq]
          exact ⟨by simp [LineGroup.appendStr], hasSuf_appendStr g0⟩
        have hnotg0 : hasSuffixS (g0.lines.getLastD []) commaStr = false := by
          rw [hds, getLastD_concat_my] at hlast
          have hl : g0.hasSuf commaStr = false := by simpa using hlast
          unfold LineGroup.hasSuf at hl
          simp only [decide_eq_false_iff_not] at hl
          have hgl : g0.lines ≠ [] := by simpa using hg0
          by_cases hs : hasSuffixS (g0.lines.getLastD []) commaStr = true
          · exact absurd ⟨hgl, hs⟩ hl
          · exact Bool.eq_false_iff.mpr hs
        have hb : (g0.appendStr commaStr).hasSuf (commaStr ++ commaStr) = false := by
          unfold LineGroup.hasSuf LineGroup.appendStr
          simp only [decide_eq_false_iff_not]
          rintro ⟨-, hsuf⟩
          rw [getLastD_concat_my, hasSuffixS_append_cancel, hnotg0] at hsuf
          cases hsuf
        rw [ha, hb]
        rfl
    · exfalso
      have hxe := htail x (by simpa using hx)
      rw [hxdata] at hxe
      cases hxe
  have hmemg0c : g0.appendStr commaStr ∈ (applyComma (groupLines md work) work).1 := by
    rw [hgr]
    simp
  have hg0cdata : (g0.appendStr commaStr).lines.isEmpty = false :=
    lines_appendStr_ne g0
  have hg0cNS : g0.appendStr commaStr ∈
      (nsStage md (applyComma (groupLines md work) work).1).2 := by
    unfold nsStage
    split
    · exact List.mem_filter.mpr ⟨hmemg0c, by simp [isNewlineG_appendStr]⟩
    · exact hmemg0c
  have hPns : ∀ g ∈ (nsStage md (applyComma (groupLines md work) work).1).2,
      g.lines.isEmpty = false → endsOneComma g = true :=
    fun g hg => hP1 g (mem_nsStage md _ g hg)
  have hDd : ∃ g ∈ (dupStage md
      (nsStage md (applyComma (groupLines md work) work).1).2).1,
      g.lines.isEmpty = false := by
    unfold dupStage
    split
    · unfold dedupGroups
      refine dedup_data_survives _ [] ?_ (by simp) ⟨_, hg0cNS, hg0cdata⟩
      intro g hg hgd
      have he := hPns g hg hgd
      unfold endsOneComma at he
      rw [Bool.and_eq_true] at he
      exact he.1
    · exact ⟨_, hg0cNS, hg0cdata⟩
  have hPd : ∀ g ∈ (dupStage md
      (nsStage md (applyComma (groupLines md work) work).1).2).1,
      g.lines.isEmpty = false → endsOneComma g = true :=
    fun g hg => hPns g (mem_dupStage md _ g hg)
  refine ⟨hfire, ?_⟩
  unfold sortedCore
  dsimp only
  rw [hfire]
  split
  · simp only [trimStage, if_pos rfl]
    exact trimLast_spec _ _ hPd hDd
  · simp only [trimStage, if_pos rfl]
    refine trimLast_spec _ _ ?_ ?_
    · intro g hg
      exact hPd g ((mem_sortCmp _ _ g).mp hg)
    · rcases hDd with ⟨g, hg, hgd⟩
      exact ⟨g, (mem_sortCmp _ _ g).mpr hg, hgd⟩

/-- C6, counterexample to the claim as stated: on `workC6` the comma
condition holds, yet after sorting the final data group DOES end with a
comma (`b,,` sorts last and only one comma is trimmed); on `workC6b` a
non-last data group keeps two commas rather than exactly one. -/
theorem claim_C6_counterexample_double_comma :
    (commaCondition (groupLines mdC6 workC6) = true ∧
      (((sortedCore mdC6 true workC6).2.2.2.filter
          (fun g => !g.lines.isEmpty)).getLastD {}).hasSuf commaStr = true) ∧
      (commaCondition (groupLines mdC6 workC6b) = true ∧
        ∃ g ∈ ((sortedCore mdC6 true workC6b).2.2.2.filter
            (fun g => !g.lines.isEmpty)).dropLast,
          g.hasSuf (commaStr ++ commaStr) = true) :=
  ⟨⟨by decide, by decide⟩, ⟨by decide, by decide⟩⟩

/-- Closed witness for the corrected C6 on `workC6w` (`b,` / `a`): the
hypotheses hold and the corrected conclusion evaluates. -/
theorem claim_C6_witness :
    (commaCondition (groupLines mdC6 workC6w) = true ∧
      ∀ g ∈ ((groupLines mdC6 workC6w).filter
          (fun g => !g.lines.isEmpty)).dropLast,
        g.hasSuf (commaStr ++ commaStr) = false) ∧
    ((applyComma (groupLines mdC6 workC6w) workC6w).2.2 = true ∧
      ((sortedCore mdC6 true workC6w).2.2.2.filter
        (fun g => !g.lines.isEmpty)) ≠ [] ∧
      (∀ g ∈ ((sortedCore mdC6 true workC6w).2.2.2.filter
          (fun g => !g.lines.isEmpty)).dropLast, endsOneComma g = true) ∧
      (((sortedCore mdC6 true workC6w).2.2.2.filter
          (fun g => !g.lines.isEmpty)).getLastD {}).hasSuf commaStr = false) :=
  ⟨⟨by decide, by decide⟩,
    claim_C6_corrected_trailing_comma mdC6 true workC6w (by decide) (by decide)⟩

theorem intCmp_lt (x y : Int) : intCmp x y < 0 ↔ x < y := by
  unfold intCmp
  split
  · omega
  · split <;> omega

theorem pairwise_insertCmp (cmp : α → α → Int) (R : α → α → Prop)
    (h1 : ∀ a b, cmp a b < 0 → R a b)
    (h2 : ∀ a b, ¬ cmp a b < 0 → R b a)
    (htr : ∀ a b c, R a b → R b c → R a c) (x : α) :
    ∀ l : List α, List.Pairwise R l → List.Pairwise R (insertCmp cmp x l) := by
  intro l
  induction l with
  | nil =>
    intro _
    simp [insertCmp]
  | cons y ys ih =>
    intro hp
    rw [insertCmp]
    rcases List.pairwise_cons.mp hp with ⟨hy, hys⟩
    by_cases hc : cmp y x < 0
    · rw [if_pos hc]
      rw [List.pairwise_cons]
      refine ⟨?_, ih hys⟩
      intro z hz
      have hz2 := (perm_insertCmp cmp x ys).mem_iff.mp hz
      rcases List.mem_cons.mp hz2 with rfl | hzz
      · exact h1 y z hc
      · exact hy z hzz
    · rw [if_neg hc]
      rw [List.pairwise_cons]
      refine ⟨?_, hp⟩
      intro z hz
      rcases List.mem_cons.mp hz with rfl | hzz
      · exact h2 z x hc
      · exact htr x y z (h2 y x hc) (hy z hzz)

theorem pairwise_sortCmp (cmp : α → α → Int) (R : α → α → Prop)
    (h1 : ∀ a b, cmp a b < 0 → R a b)
    (h2 : ∀ a b, ¬ cmp a b < 0 → R b a)
    (htr : ∀ a b c, R a b → R b c → R a c) :
    ∀ l : List α, List.Pairwise R (sortCmp cmp l) := by
  intro l
  induction l with
  | nil => simp [sortCmp]
  | cons x xs ih =>
    rw [sortCmp]
    exact pairwise_insertCmp cmp R h1 h2 htr x _ ih

theorem find?_longest (p : Str → Bool) :
    ∀ l : List Str, List.Pairwise (fun a b : Str => b.length ≤ a.length) l →
      ∀ q, l.find? p = some q → ∀ x ∈ l, p x = true → x.length ≤ q.length := by
  intro l
  induction l with
  | nil =>
    intro _ q h
    simp at h
  | cons y ys ih =>
    intro hpw q hfind x hx hpx
    rcases List.pairwise_cons.mp hpw with ⟨hy, hys⟩
    rw [List.find?_cons] at hfind
    rcases hpy : p y with _ | _
    · rw [hpy] at hfind
      simp only at hfind
      rcases List.mem_cons.mp hx with rfl | hxx
      · rw [hpx] at hpy
        cases hpy
      · exact ih hys q hfind x hxx hpx
    · rw [hpy] at hfind
      simp only [Option.some.injEq] at hfind
      subst hfind
      rcases List.mem_cons.mp hx with rfl | hxx
      · exact le_refl _
      · exact hy x hxx

theorem mem_enumFrom_snd :
    ∀ (l : List α) (n : Nat) (x : Nat × α), x ∈ List.enumFrom n l → x.2 ∈ l := by
  intro l
  induction l with
  | nil =>
    intro n x h
    simp at h
  | cons a as ih =>
    intro n x h
    rw [show List.enumFrom n (a :: as) = (n, a) :: List.enumFrom (n + 1) as
      from rfl] at h
    rcases List.mem_cons.mp h with rfl | h2
    · simp
    · exact List.mem_cons_of_mem _ (ih (n + 1) x h2)

theorem find?_append_my (p : α → Bool) :
    ∀ l₁ l₂ : List α,
      (l₁ ++ l₂).find? p = ((l₁.find? p).orElse fun _ => l₂.find? p) := by
  intro l₁
  induction l₁ with
  | nil =>
    intro l₂
    simp
  | cons x xs ih =>
    intro l₂
    rw [List.cons_append, List.find?_cons, List.find?_cons]
    rcases hx : p x with _ | _
    · simp only
      exact ih l₂
    · simp only
      rfl

theorem find?_key_enumFrom (L : Int) (q : Str) :
    ∀ (l : List Str) (n : Nat), l.Nodup → q ∈ l →
      (((List.enumFrom n l).map
          (fun p => (p.2, Int.ofNat p.1 - L))).reverse).find?
        (fun w => w.1 = q) =
      some (q, Int.ofNat (n + idxIn l q) - L) := by
  intro l
  induction l with
  | nil =>
    intro n _ hq
    simp at hq
  | cons x xs ih =>
    intro n hnd hq
    rcases List.nodup_cons.mp hnd with ⟨hx, hxs⟩
    rw [show List.enumFrom n (x :: xs) = (n, x) :: List.enumFrom (n + 1) xs
      from rfl]
    rw [List.map_cons, List.reverse_cons, find?_append_my]
    by_cases hqx : q = x
    · subst hqx
      have hnone : ((List.enumFrom (n + 1) xs).map
          (fun p => (p.2, Int.ofNat p.1 - L))).reverse.find?
            (fun w => w.1 = q) = none := by
        rw [List.find?_eq_none]
        intro w hw
        have hw2 : w ∈ (List.enumFrom (n + 1) xs).map
            (fun p => (p.2, Int.ofNat p.1 - L)) := by simpa using hw
        rcases List.mem_map.mp hw2 with ⟨pr, hpr, rfl⟩
        have hmem : pr.2 ∈ xs := mem_enumFrom_snd xs (n + 1) pr hpr
        intro hcon
        simp only [decide_eq_true_eq] at hcon
        exact hx (hcon ▸ hmem)
      rw [hnone]
      simp [List.find?, idxIn]
    · have hqxs : q ∈ xs := by
        rcases List.mem_cons.mp hq with h | h
        · exact absurd h hqx
        · exact h
      rw [ih (n + 1) hxs hqxs]
      have hidx : idxIn (x :: xs) q = idxIn xs q + 1 := by
        rw [idxIn, if_neg (fun h => hqx (Eq.symm h))]
      rw [hidx]
      have harith : n + 1 + idxIn xs q = n + (idxIn xs q + 1) := by
        omega
      rw [harith]
      rfl

theorem weightLookup_enum (l : List Str) (hnd : l.Nodup) (q : Str) (hq : q ∈ l)
    (L : Int) :
    weightLookup (l.enum.map fun p => (p.2, Int.ofNat p.1 - L)) q =
      Int.ofNat (idxIn l q) - L := by
  unfold weightLookup
  rw [show l.enum = List.enumFrom 0 l from rfl]
  rw [find?_key_enumFrom L q l 0 hnd hq]
  simp

theorem weightLookup_not_mem (l : List Str) (q : Str) (hq : q ∉ l) (L : Int) :
    weightLookup (l.enum.map fun p => (p.2, Int.ofNat p.1 - L)) q = 0 := by
  unfold weightLookup
  have hnone : ((l.enum.map fun p => (p.2, Int.ofNat p.1 - L)).reverse).find?
      (fun w => w.1 = q) = none := by
    rw [List.find?_eq_none]
    intro w hw
    have hw2 : w ∈ l.enum.map fun p => (p.2, Int.ofNat p.1 - L) := by
      simpa using hw
    rcases List.mem_map.mp hw2 with ⟨pr, hpr, rfl⟩
    have hmem : pr.2 ∈ l := mem_enumFrom_snd l 0 pr hpr
    intro hcon
    simp only [decide_eq_true_eq] at hcon
    exact hq (hcon ▸ hmem)
  rw [hnone]

theorem poMatch_some (opts : BlockOpts) (s : Str) (q : Str)
    (hne : ¬ opts.prefixOrder.isEmpty = true)
    (h : (sortCmp (fun a b : Str => intCmp b.length a.length)
        opts.prefixOrder).find?
      (fun p => (foldS opts p).isPrefixOf (foldS opts (trimLeftSpace s))) =
      some q) :
    poMatch (newPrefixOrder opts) s =
      (q, weightLookup (opts.prefixOrder.enum.map fun p =>
        (p.2, Int.ofNat p.1 - Int.ofNat opts.prefixOrder.length)) q) := by
  unfold foldS at h
  unfold poMatch newPrefixOrder cutFirst
  rw [if_neg hne]
  dsimp only
  rw [h]

theorem poMatch_none (opts : BlockOpts) (s : Str)
    (hne : ¬ opts.prefixOrder.isEmpty = true)
    (h : (sortCmp (fun a b : Str => intCmp b.length a.length)
        opts.prefixOrder).find?
      (fun p => (foldS opts p).isPrefixOf (foldS opts (trimLeftSpace s))) =
      none) :
    poMatch (newPrefixOrder opts) s =
      ([], weightLookup (opts.prefixOrder.enum.map fun p =>
        (p.2, Int.ofNat p.1 - Int.ofNat opts.prefixOrder.length)) []) := by
  unfold foldS at h
  unfold poMatch newPrefixOrder cutFirst
  rw [if_neg hne]
  dsimp only
  rw [h]

theorem idxIn_lt_length (q : Str) : ∀ l : List Str, q ∈ l → idxIn l q < l.length := by
  intro l
  induction l with
  | nil =>
    intro h
    simp at h
  | cons x xs ih =>
    intro h
    rw [idxIn]
    by_cases hx : x = q
    · rw [if_pos hx]
      simp
    · rw [if_neg hx]
      have hq : q ∈ xs := by
        rcases List.mem_cons.mp h with rfl | h2
        · exact absurd rfl hx
        · exact h2
      have := ih hq
      simp only [List.length_cons]
      omega

/-- C7: with a prefix order configured (and its entries distinct, as the
weight map assumes), `prefixOrder.match` either matches no configured
prefix — the case-folded content starts with none of the case-folded
prefixes — and returns the zero weight, or it returns a configured
prefix the content starts with whose length is maximal among all
matching prefixes (prefixes are scanned longest first, so a longer
configured prefix beats its own prefixes), with weight
`index - total_count`, which is negative. A configured empty prefix
matches everything, so otherwise-unmatched content receives its
(negative) configured weight rather than 0. -/
theorem claim_C7_prefix_order_lookup (opts : BlockOpts) (s : Str)
    (hcfg : opts.prefixOrder ≠ []) (hnd : opts.prefixOrder.Nodup) :
    (newPrefixOrder opts).isSome = true ∧
    ((∀ p ∈ opts.prefixOrder,
        (foldS opts p).isPrefixOf (foldS opts (trimLeftSpace s)) = false) →
      poMatch (newPrefixOrder opts) s = ([], 0)) ∧
    ((∃ p ∈ opts.prefixOrder,
        (foldS opts p).isPrefixOf (foldS opts (trimLeftSpace s)) = true) →
      ∃ q ∈ opts.prefixOrder,
        (foldS opts q).isPrefixOf (foldS opts (trimLeftSpace s)) = true ∧
        (∀ p ∈ opts.prefixOrder,
          (foldS opts p).isPrefixOf (foldS opts (trimLeftSpace s)) = true →
          p.length ≤ q.length) ∧
        poMatch (newPrefixOrder opts) s =
          (q, Int.ofNat (idxIn opts.prefixOrder q) -
            Int.ofNat opts.prefixOrder.length) ∧
        (poMatch (newPrefixOrder opts) s).2 < 0) := by
  have hne : ¬ opts.prefixOrder.isEmpty = true := by simpa using hcfg
  refine ⟨?_, ?_, ?_⟩
  · unfold newPrefixOrder
    rw [if_neg hne]
    rfl
  · intro hnomatch
    have hfind : (sortCmp (fun a b : Str => intCmp b.length a.length)
        opts.prefixOrder).find?
        (fun p => (foldS opts p).isPrefixOf (foldS opts (trimLeftSpace s))) =
        none := by
      rw [List.find?_eq_none]
      intro x hx
      have hxm := (mem_sortCmp _ _ x).mp hx
      simp [hnomatch x hxm]
    rw [poMatch_none opts s hne hfind]
    have hnilmem : ([] : Str) ∉ opts.prefixOrder := by
      intro hmem
      have hcon := hnomatch [] hmem
      rw [show foldS opts ([] : Str) = [] from by
        unfold foldS toLowerS
        split <;> rfl] at hcon
      simp [List.isPrefixOf] at hcon
    rw [weightLookup_not_mem _ _ hnilmem]
  · intro hex
    rcases hfind : (sortCmp (fun a b : Str => intCmp b.length a.length)
        opts.prefixOrder).find?
        (fun p => (foldS opts p).isPrefixOf (foldS opts (trimLeftSpace s)))
      with _ | q
    · exfalso
      rw [List.find?_eq_none] at hfind
      rcases hex with ⟨p, hp, hmatch⟩
      exact hfind p ((mem_sortCmp _ _ p).mpr hp) (by simp [hmatch])
    · have hqP := List.mem_of_find?_eq_some hfind
      have hq := (mem_sortCmp _ _ q).mp hqP
      have hqmatch := List.find?_some hfind
      have hpw : List.Pairwise (fun a b : Str => b.length ≤ a.length)
          (sortCmp (fun a b : Str => intCmp b.length a.length)
            opts.prefixOrder) := by
        refine pairwise_sortCmp _ _ ?_ ?_ ?_ opts.prefixOrder
        · intro a b hab
          have := (intCmp_lt _ _).mp hab
          omega
        · intro a b hab
          rw [intCmp_lt] at hab
          omega
        · intro a b c ha hb
          omega
      have hmax : ∀ p ∈ opts.prefixOrder,
          (foldS opts p).isPrefixOf (foldS opts (trimLeftSpace s)) = true →
          p.length ≤ q.length := by
        intro p hp hpp
        exact find?_longest _ _ hpw q hfind p ((mem_sortCmp _ _ p).mpr hp) hpp
      have hw := weightLookup_enum opts.prefixOrder hnd q hq
        (Int.ofNat opts.prefixOrder.length)
      have hpm := poMatch_some opts s q hne hfind
      rw [hw] at hpm
      have hlt : (poMatch (newPrefixOrder opts) s).2 < 0 := by
        rw [hpm]
        have hidx := idxIn_lt_length q opts.prefixOrder hq
        simp only [Int.ofNat_eq_coe]
        omega
      exact ⟨q, hq, hqmatch, hmax, hpm, hlt⟩

/-- Closed witness for C7 on prefix order `bb`, `b`, `""` and content
`bbx`: the longest match `bb` wins with weight `0 - 3 = -3`. -/
theorem claim_C7_witness :
    (optsC7.prefixOrder ≠ [] ∧ optsC7.prefixOrder.Nodup) ∧
      ((newPrefixOrder optsC7).isSome = true ∧
      ((∀ p ∈ optsC7.prefixOrder,
          (foldS optsC7 p).isPrefixOf (foldS optsC7 (trimLeftSpace sC7)) = false) →
        poMatch (newPrefixOrder optsC7) sC7 = ([], 0)) ∧
      ((∃ p ∈ optsC7.prefixOrder,
          (foldS optsC7 p).isPrefixOf (foldS optsC7 (trimLeftSpace sC7)) = true) →
        ∃ q ∈ optsC7.prefixOrder,
          (foldS optsC7 q).isPrefixOf (foldS optsC7 (trimLeftSpace sC7)) = true ∧
          (∀ p ∈ optsC7.prefixOrder,
            (foldS optsC7 p).isPrefixOf (foldS optsC7 (trimLeftSpace sC7)) = true →
            p.length ≤ q.length) ∧
          poMatch (newPrefixOrder optsC7) sC7 =
            (q, Int.ofNat (idxIn optsC7.prefixOrder q) -
              Int.ofNat optsC7.prefixOrder.length) ∧
          (poMatch (newPrefixOrder optsC7) sC7).2 < 0)) :=
  ⟨⟨by decide, by decide⟩,
    claim_C7_prefix_order_lookup optsC7 sC7 (by decide) (by decide)⟩

theorem ntCompareAux_zero (t o : NumericTokens) :
    ∀ (rem idx : Nat), (∀ j, idx ≤ j → j < idx + rem → cAt t o j = 0) →
      ntCompareAux t o idx rem = Int.ofNat t.len - Int.ofNat o.len := by
  intro rem
  induction rem with
  | zero =>
    intro idx _
    rfl
  | succ n ih =>
    intro idx hz
    rw [ntCompareAux]
    show (if cAt t o idx ≠ 0 then cAt t o idx
      else ntCompareAux t o (idx + 1) n) = _
    rw [hz idx (le_refl _) (by omega)]
    rw [if_neg (by simp)]
    exact ih (idx + 1) (fun j h1 h2 => hz j (by omega) (by omega))

theorem ntCompareAux_found (t o : NumericTokens) :
    ∀ (rem idx j : Nat), idx ≤ j → j < idx + rem → cAt t o j ≠ 0 →
      (∀ k, idx ≤ k → k < j → cAt t o k = 0) →
      ntCompareAux t o idx rem = cAt t o j := by
  intro rem
  induction rem with
  | zero =>
    intro idx j h1 h2 _ _
    exact absurd h2 (by omega)
  | succ n ih =>
    intro idx j h1 h2 hj hmin
    rw [ntCompareAux]
    show (if cAt t o idx ≠ 0 then cAt t o idx
      else ntCompareAux t o (idx + 1) n) = _
    by_cases hideq : j = idx
    · subst hideq
      rw [if_pos hj]
    · have hidx0 : cAt t o idx = 0 := hmin idx (le_refl _) (by omega)
      rw [hidx0, if_neg (by simp)]
      exact ih (idx + 1) j (by omega) (by omega) hj
        (fun k hk1 hk2 => hmin k (by omega) hk2)

theorem runsGo_alt : ∀ (rest : Str) (k : Bool) (acc : Str),
    altKinds (runsGo (some (k, acc)) rest) = true ∧
    (runsGo (some (k, acc)) rest).head?.map Prod.fst = some k := by
  intro rest
  induction rest with
  | nil =>
    intro k acc
    exact ⟨rfl, rfl⟩
  | cons c cs ih =>
    intro k acc
    rw [runsGo]
    dsimp only
    by_cases hk : isDigitGo c = k
    · rw [if_pos hk]
      exact ih k (c :: acc)
    · rw [if_neg hk]
      rcases ih (isDigitGo c) [c] with ⟨h1, h2⟩
      refine ⟨?_, rfl⟩
      cases hrg : runsGo (some (isDigitGo c, [c])) cs with
      | nil => rfl
      | cons x xs =>
        rw [hrg] at h1 h2
        simp only [List.head?_cons, Option.map_some', Option.some.injEq] at h2
        simp only [altKinds, Bool.and_eq_true, decide_eq_true_eq]
        refine ⟨?_, h1⟩
        intro hc
        exact hk (by rw [← h2]; exact hc.symm)

theorem numRuns_alt (s : Str) : altKinds (numRuns s) = true := by
  unfold numRuns
  cases s with
  | nil => rfl
  | cons c cs =>
    rw [runsGo]
    exact (runsGo_alt cs (isDigitGo c) [c]).1

theorem fold_shape :
    ∀ (L : List (Bool × Str)) (t : NumericTokens),
      altKinds L = true →
      t.i.length ≤ t.s.length →
      t.s.length ≤ t.i.length + 1 →
      (L.head?.map Prod.fst = some true →
        t.s.length = t.i.length + 1 ∨ t.s.length + t.i.length = 0) →
      (L.head?.map Prod.fst = some false → t.s.length = t.i.length) →
      (L.foldl ntStep t).i.length ≤ (L.foldl ntStep t).s.length ∧
        (L.foldl ntStep t).s.length ≤ (L.foldl ntStep t).i.length + 1 := by
  intro L
  induction L with
  | nil =>
    intro t _ hb1 hb2 _ _
    exact ⟨hb1, hb2⟩
  | cons r rest ih =>
    intro t halt hb1 hb2 hdig hstr
    rw [List.foldl_cons]
    have haltr : altKinds rest = true := by
      cases rest with
      | nil => rfl
      | cons r2 rs =>
        simp only [altKinds, Bool.and_eq_true] at halt
        exact halt.2
    have hcontr : ∀ b : Bool, rest.head?.map Prod.fst = some b → b ≠ r.1 := by
      intro b hh
      cases hrest : rest.head? with
      | none =>
        rw [hrest] at hh
        cases hh
      | some r2 =>
        rw [hrest] at hh
        simp only [Option.map_some', Option.some.injEq] at hh
        cases rest with
        | nil => cases hrest
        | cons r3 rs =>
          simp only [List.head?_cons, Option.some.injEq] at hrest
          subst hrest
          simp only [altKinds, Bool.and_eq_true, decide_eq_true_eq] at halt
          intro hc
          exact halt.1 (hh.trans hc).symm
    rcases hr : r.1 with _ | _
    · have hseq : t.s.length = t.i.length := by
        apply hstr
        simp [hr]
      have hstep : ntStep t r = { t with s := t.s ++ [r.2] } := by
        simp [ntStep, hr]
      rw [hstep]
      apply ih
      · exact haltr
      · simp
        omega
      · simp
        omega
      · intro _
        left
        simp [hseq]
      · intro hh
        exact absurd hr.symm (hcontr false hh)
    · rcases hdig (by simp [hr]) with hcase | hcase
      · have hstep : ntStep t r = { t with i := t.i ++ [natOfDigits r.2] } := by
          have hlen : ¬ t.len = 0 := by
            unfold NumericTokens.len
            omega
          simp [ntStep, hr, hlen]
        rw [hstep]
        apply ih
        · exact haltr
        · simp
          omega
        · simp
          omega
        · intro hh
          exact absurd hr.symm (hcontr true hh)
        · intro _
          simp [hcase]
      · have hs0 : t.s.length = 0 := by omega
        have hi0 : t.i.length = 0 := by omega
        have hstep : ntStep t r =
            { t with s := t.s ++ [[]], i := t.i ++ [natOfDigits r.2] } := by
          have hlen : t.len = 0 := by
            unfold NumericTokens.len
            omega
          simp [ntStep, hr, hlen]
        rw [hstep]
        apply ih
        · exact haltr
        · simp [hs0, hi0]
        · simp [hs0, hi0]
        · intro hh
          exact absurd hr.symm (hcontr true hh)
        · intro _
          simp [hs0, hi0]

/-- C8: with `numeric=yes` the comparison key always begins with a
(possibly empty) string run and alternates string/number runs (the run
counts differ by at most one, string-heavy); keys compare run-by-run —
string runs lexicographically at even positions, digit runs by integer
magnitude at odd positions — the first differing run decides, and when
all compared runs agree the key with fewer total runs sorts first; in
particular the key of `item_9` compares below the key of `item_10`. -/
theorem claim_C8_numeric_comparison (opts : BlockOpts)
    (hnum : opts.numeric = true) (s : Str) (t o : NumericTokens) :
    ((opts.maybeParseNumeric s).i.length ≤ (opts.maybeParseNumeric s).s.length ∧
      (opts.maybeParseNumeric s).s.length ≤
        (opts.maybeParseNumeric s).i.length + 1) ∧
    ((∀ j, j < min t.len o.len → cAt t o j = 0) →
      NumericTokens.compare t o = Int.ofNat t.len - Int.ofNat o.len) ∧
    (∀ j, j < min t.len o.len → cAt t o j ≠ 0 → (∀ k, k < j → cAt t o k = 0) →
      NumericTokens.compare t o = cAt t o j) ∧
    (opts.maybeParseNumeric ( "item_9".toList )).compare
      (opts.maybeParseNumeric ( "item_10".toList )) < 0 := by
  have hkey : ∀ u : Str,
      opts.maybeParseNumeric u = (numRuns u).foldl ntStep ⟨[], []⟩ := by
    intro u
    unfold BlockOpts.maybeParseNumeric
    rw [hnum]
    rfl
  refine ⟨?_, ?_, ?_, ?_⟩
  · rw [hkey s]
    exact fold_shape (numRuns s) ⟨[], []⟩ (numRuns_alt s) (le_refl 0)
      (by simp) (fun _ => Or.inr rfl) (fun _ => rfl)
  · intro hall
    unfold NumericTokens.compare
    exact ntCompareAux_zero t o (min t.len o.len) 0
      (fun j h1 h2 => hall j (by omega))
  · intro j hj hne0 hmink
    unfold NumericTokens.compare
    exact ntCompareAux_found t o (min t.len o.len) 0 j (by omega) (by omega)
      hne0 (fun k hk1 hk2 => hmink k hk2)
  · rw [hkey, hkey]
    decide

/-- Closed witness for C8 with `numeric=yes` options and the keys of
`item_9` / `item_10`. -/
theorem claim_C8_witness :
    optsC8.numeric = true ∧
      (((optsC8.maybeParseNumeric ( "9a".toList )).i.length ≤
          (optsC8.maybeParseNumeric ( "9a".toList )).s.length ∧
        (optsC8.maybeParseNumeric ( "9a".toList )).s.length ≤
          (optsC8.maybeParseNumeric ( "9a".toList )).i.length + 1) ∧
      ((∀ j, j < min (optsC8.maybeParseNumeric ( "item_9".toList )).len
            (optsC8.maybeParseNumeric ( "item_10".toList )).len →
          cAt (optsC8.maybeParseNumeric ( "item_9".toList ))
            (optsC8.maybeParseNumeric ( "item_10".toList )) j = 0) →
        NumericTokens.compare (optsC8.maybeParseNumeric ( "item_9".toList ))
            (optsC8.maybeParseNumeric ( "item_10".toList )) =
          Int.ofNat (optsC8.maybeParseNumeric ( "item_9".toList )).len -
            Int.ofNat (optsC8.maybeParseNumeric ( "item_10".toList )).len) ∧
      (∀ j, j < min (optsC8.maybeParseNumeric ( "item_9".toList )).len
            (optsC8.maybeParseNumeric ( "item_10".toList )).len →
          cAt (optsC8.maybeParseNumeric ( "item_9".toList ))
            (optsC8.maybeParseNumeric ( "item_10".toList )) j ≠ 0 →
          (∀ k, k < j → cAt (optsC8.maybeParseNumeric ( "item_9".toList ))
            (optsC8.maybeParseNumeric ( "item_10".toList )) k = 0) →
          NumericTokens.compare (optsC8.maybeParseNumeric ( "item_9".toList ))
              (optsC8.maybeParseNumeric ( "item_10".toList )) =
            cAt (optsC8.maybeParseNumeric ( "item_9".toList ))
              (optsC8.maybeParseNumeric ( "item_10".toList )) j) ∧
      (optsC8.maybeParseNumeric ( "item_9".toList )).compare
        (optsC8.maybeParseNumeric ( "item_10".toList )) < 0) :=
  ⟨by decide,
    claim_C8_numeric_comparison optsC8 (by decide) ( "9a".toList )
      (optsC8.maybeParseNumeric ( "item_9".toList ))
      (optsC8.maybeParseNumeric ( "item_10".toList ))⟩

end KeepSorted
